import Mathlib

/-!
Verification of the spatial-narrative index layer.

Shallow embedding of the indexing core of the `spatial-narrative` Rust
crate (`src/index/spatial.rs`, `src/index/temporal.rs`,
`src/index/spatiotemporal.rs`, plus the bounds/timestamp value types from
`src/core/`), together with theorems settling the specification claims
about it.

Modelling conventions:

* Geographic coordinates (`f64` in the source) are modelled as rationals
  `ℚ`.  The claims under study are order/containment/aggregation
  properties whose truth does not hinge on binary rounding; every
  counterexample below holds with wide numeric margins.
* `Timestamp` is modelled by its Unix-epoch millisecond value (`Int`):
  the indexes key every timestamp by `to_unix_millis()`, and the embedded
  comparisons mirror the source comparisons at millisecond granularity.
  A `Timestamp`'s auxiliary precision tag never influences any indexed
  operation and is omitted.
* `Location`'s optional `elevation` / `uncertainty_meters` / `name`
  fields are omitted: no indexed operation reads them (`GeoBounds::contains`,
  the R-tree envelope and `distance_2` read only `lat` / `lon`).
* The `rstar` R-tree is modelled by its set semantics: the tree holds the
  multiset of inserted `IndexedLocation`s (kept here in insertion order),
  `AABB::from_corners` normalises the two corners componentwise
  (`lower = min`, `upper = max`, as in `rstar`'s `aabb.rs`),
  `locate_in_envelope` keeps the points inside the closed box,
  `locate_within_distance` keeps the points with `distance_2 ≤ r²`
  (inclusive), and `nearest_neighbor_iter` yields points by ascending
  `distance_2`.
* `BTreeMap<i64, Vec<usize>>` is modelled as an association list sorted
  by strictly increasing key; `range(..)` calls become key filters, and
  `range(k..).next()` becomes the first entry with a qualifying key.
* Fallible steps (`Vec` indexing, the `usize` underflow / out-of-bounds
  panic inside `heatmap`, chrono's range-checked
  `DateTime::from_timestamp_millis`) are modelled with `Option`.
-/

namespace SpatialNarrative

/-! ## Core value types (`src/core/location.rs`, `src/core/bounds.rs`) -/

/-- Model of `Location` (WGS84 coordinates); only the `lat`/`lon` fields feed the
index layer. -/
structure Location where
  lat : ℚ
  lon : ℚ
deriving DecidableEq, Repr

/-- Model of `GeoBounds`: a rectangular region given by min/max latitude and
longitude (`src/core/bounds.rs`). -/
structure GeoBounds where
  min_lat : ℚ
  min_lon : ℚ
  max_lat : ℚ
  max_lon : ℚ
deriving DecidableEq, Repr

/-- Model of `GeoBounds::contains`: closed-interval containment on both axes. -/
def GeoBounds.contains (b : GeoBounds) (loc : Location) : Bool :=
  decide (b.min_lat ≤ loc.lat) && decide (loc.lat ≤ b.max_lat) &&
  decide (b.min_lon ≤ loc.lon) && decide (loc.lon ≤ b.max_lon)

/-- Model of `TimeRange` (`src/core/bounds.rs`), with both endpoints modelled by
their millisecond values.  The source field `end` is a Lean keyword and
is called `stop` here. -/
structure TimeRange where
  start : Int
  stop : Int
deriving DecidableEq, Repr

/-- Model of `TimeRange::contains`: inclusive on both ends (source compares the
underlying datetimes; at millisecond granularity this is the comparison
below). -/
def TimeRange.containsTs (r : TimeRange) (t : Int) : Bool :=
  decide (r.start ≤ t) && decide (t ≤ r.stop)

/-! ## Timestamp conversions (`src/core/timestamp.rs`) -/

/-- Smallest millisecond value representable by a chrono `DateTime<Utc>`
(`DateTime::from_timestamp_millis` returns `None` below it). -/
def chronoMinMillis : Int := -8334601228800000

/-- Largest millisecond value representable by a chrono `DateTime<Utc>`
(`DateTime::from_timestamp_millis` returns `None` above it). -/
def chronoMaxMillis : Int := 8210266876799999

/-- Model of `Timestamp::from_unix_millis`: succeeds exactly on the millisecond
values chrono can represent.  In this embedding a timestamp *is* its
millisecond value.  Every key stored by the indexes comes from
`to_unix_millis()` of an actual `Timestamp`, hence lies in this range. -/
def fromUnixMillis (m : Int) : Option Int :=
  if chronoMinMillis ≤ m ∧ m ≤ chronoMaxMillis then some m else none

/-! ## TemporalIndex (`src/index/temporal.rs`)

The Rust struct holds `tree : BTreeMap<i64, Vec<usize>>`,
`items : Vec<T>` and `timestamps : Vec<Timestamp>`.  The B-tree is
modelled as an association list with strictly increasing keys. -/

/-- The temporal index: sorted key → bucket-of-handles map, the item
arena, and the parallel timestamp vector. -/
structure TemporalIndex (T : Type) where
  tree : List (Int × List Nat)
  items : List T
  timestamps : List Int
deriving Repr

/-- Model of `TemporalIndex::new()`. -/
def TemporalIndex.empty {T : Type} : TemporalIndex T := ⟨[], [], []⟩

/-- Model of `self.tree.entry(key).or_insert_with(Vec::new).push(idx)` on the
sorted association list: append `i` to the bucket of `k`, creating the
bucket at its sorted position if absent. -/
def insertTree : List (Int × List Nat) → Int → Nat → List (Int × List Nat)
  | [], k, i => [(k, [i])]
  | (k', b) :: rest, k, i =>
    if k < k' then (k, [i]) :: (k', b) :: rest
    else if k = k' then (k', b ++ [i]) :: rest
    else (k', b) :: insertTree rest k i

/-- Model of `TemporalIndex::insert`: the new handle is the current length of the
item vector. -/
def TemporalIndex.insert {T : Type} (idx : TemporalIndex T) (item : T) (ts : Int) :
    TemporalIndex T :=
  { tree := insertTree idx.tree ts idx.items.length
    items := idx.items ++ [item]
    timestamps := idx.timestamps ++ [ts] }

/-- Build a temporal index by inserting the given `(item, timestamp)`
pairs in order; every reachable `TemporalIndex` arises this way
(`new` + `insert`, and `from_iter` is exactly this fold). -/
def TemporalIndex.ofList {T : Type} (l : List (T × Int)) : TemporalIndex T :=
  l.foldl (fun idx p => idx.insert p.1 p.2) .empty

/-- Model of `&self.items[i]` for each handle in a bucket (always in bounds for
reachable indexes; out-of-range handles drop out of the `Option`). -/
def getItems {T : Type} (items : List T) (b : List Nat) : List T :=
  b.filterMap (fun i => items[i]?)

/-- Model of `TemporalIndex::query_range`: `tree.range(start_key..=end_key)`,
flattened bucket by bucket.  On the sorted association list the range
call is a key filter. -/
def TemporalIndex.query_range {T : Type} (idx : TemporalIndex T) (r : TimeRange) :
    List T :=
  (idx.tree.filter (fun p => decide (r.start ≤ p.1) && decide (p.1 ≤ r.stop))).flatMap
    (fun p => getItems idx.items p.2)

/-- Model of `TemporalIndex::before`: `tree.range(..key)` — strictly earlier keys. -/
def TemporalIndex.before {T : Type} (idx : TemporalIndex T) (ts : Int) : List T :=
  (idx.tree.filter (fun p => decide (p.1 < ts))).flatMap
    (fun p => getItems idx.items p.2)

/-- Model of `TemporalIndex::at_or_after`: `tree.range(key..)` — keys at or after. -/
def TemporalIndex.at_or_after {T : Type} (idx : TemporalIndex T) (ts : Int) : List T :=
  (idx.tree.filter (fun p => decide (ts ≤ p.1))).flatMap
    (fun p => getItems idx.items p.2)

/-- Model of `TemporalIndex::time_range`: first and last tree key, each pushed
through `Timestamp::from_unix_millis`, any failure giving `None`. -/
def TemporalIndex.time_range {T : Type} (idx : TemporalIndex T) : Option TimeRange := do
  let firstKey ← (idx.tree.map Prod.fst).head?
  let lastKey ← (idx.tree.map Prod.fst).getLast?
  let s ← fromUnixMillis firstKey
  let e ← fromUnixMillis lastKey
  pure ⟨s, e⟩

/-! ### Sliding window iterator (`SlidingWindowIter`, `src/index/temporal.rs`)

`next()` takes the current start `s` (initially the first tree key),
collects the items with key in the half-open window `[s, s + window)`
via `tree.range(start..end)`, sets the next start to the first key
strictly greater than `s` (`tree.range((start + 1)..).next()`), skips
empty windows by recursing, and stops (returns `None`) when an empty
window has no successor start.  The model materialises the whole
(finite) output sequence. -/

/-- Model of `tree.range(start..end)` flattened: items with key in `[lo, hi)`. -/
def windowItems {T : Type} (idx : TemporalIndex T) (lo hi : Int) : List T :=
  (idx.tree.filter (fun p => decide (lo ≤ p.1) && decide (p.1 < hi))).flatMap
    (fun p => getItems idx.items p.2)

/-- Model of `tree.range((start + 1)..).next()`: the first (hence, on the sorted
list, smallest) key strictly greater than `s`. -/
def nextStart (tree : List (Int × List Nat)) (s : Int) : Option Int :=
  (tree.find? (fun p => decide (s < p.1))).map Prod.fst

/-- Termination measure for the iterator: number of keys strictly beyond
the current start (plus one while a start is pending). -/
def slidingMeasure (tree : List (Int × List Nat)) : Option Int → Nat
  | none => 0
  | some s => (tree.filter (fun p => decide (s < p.1))).length + 1

theorem length_filter_lt_of_mem {α : Type} {p q : α → Bool} {l : List α} {a : α}
    (himp : ∀ x, p x = true → q x = true) (ha : a ∈ l) (hqa : q a = true)
    (hpa : p a = false) : (l.filter p).length < (l.filter q).length := by
  induction l with
  | nil => cases ha
  | cons b t ih =>
    rcases List.mem_cons.mp ha with rfl | hat
    · rw [List.filter_cons_of_neg (by simp [hpa]), List.filter_cons_of_pos hqa]
      have hle : (t.filter p).length ≤ (t.filter q).length :=
        List.Sublist.length_le (List.monotone_filter_right t (by
          intro x hx; exact himp x hx))
      simpa using Nat.lt_succ_of_le hle
    · by_cases hpb : p b = true
      · have hqb : q b = true := himp b hpb
        rw [List.filter_cons_of_pos hpb, List.filter_cons_of_pos hqb]
        simpa using ih hat
      · by_cases hqb : q b = true
        · rw [List.filter_cons_of_neg hpb, List.filter_cons_of_pos hqb]
          exact Nat.lt_succ_of_lt (ih hat)
        · rw [List.filter_cons_of_neg hpb, List.filter_cons_of_neg hqb]
          exact ih hat

theorem slidingMeasure_nextStart_lt (tree : List (Int × List Nat)) (s : Int) :
    slidingMeasure tree (nextStart tree s) < slidingMeasure tree (some s) := by
  rcases h : nextStart tree s with _ | s'
  · simp [slidingMeasure]
  · rcases hf : tree.find? (fun p => decide (s < p.1)) with _ | e
    · simp [nextStart, hf] at h
    · have hs' : s' = e.1 := by
        simp [nextStart, hf] at h; omega
      have hmem : e ∈ tree := List.mem_of_find?_eq_some hf
      have hpred := List.find?_some hf
      have hse : s < e.1 := by simpa using hpred
      subst hs'
      simp only [slidingMeasure, Nat.add_lt_add_iff_right]
      refine length_filter_lt_of_mem ?_ hmem (by simpa using hse) (by simp)
      intro x hx
      have := of_decide_eq_true hx
      simp only [decide_eq_true_eq]
      omega

/-- The iterator loop of `SlidingWindowIter::next`, run to exhaustion:
from the current start, emit the window if non-empty, then continue from
the next start; an empty window with a pending next start is skipped; an
empty window with no next start ends the sequence. -/
def slidingAux {T : Type} (idx : TemporalIndex T) (w : Int) (cur : Option Int) :
    List (List T) :=
  match cur with
  | none => []
  | some s =>
    if (windowItems idx s (s + w)).isEmpty then
      slidingAux idx w (nextStart idx.tree s)
    else
      windowItems idx s (s + w) :: slidingAux idx w (nextStart idx.tree s)
termination_by slidingMeasure idx.tree cur
decreasing_by
  · exact slidingMeasure_nextStart_lt idx.tree s
  · exact slidingMeasure_nextStart_lt idx.tree s

/-- Model of `TemporalIndex::sliding_window`: the iterator starts at the first
tree key (`self.tree.keys().next()`). -/
def TemporalIndex.sliding_window {T : Type} (idx : TemporalIndex T) (w : Int) :
    List (List T) :=
  slidingAux idx w ((idx.tree.map Prod.fst).head?)

/-! ## SpatialIndex (`src/index/spatial.rs`)

The Rust struct holds `tree : RTree<IndexedLocation>` and
`items : Vec<T>`.  The R-tree is modelled by the list of inserted
`IndexedLocation`s; its queries are the set-semantics of `rstar`'s
`locate_in_envelope` / `locate_within_distance` /
`nearest_neighbor_iter` described in the header. -/

/-- Model of `IndexedLocation`: a point plus the handle of its item. -/
structure IndexedLocation where
  location : Location
  index : Nat
deriving DecidableEq, Repr

/-- Model of `IndexedLocation::distance_2`: squared planar distance in degree
space to an `[lon, lat]` query point (`dx = lon - point[0]`,
`dy = lat - point[1]`). -/
def IndexedLocation.distance_2 (il : IndexedLocation) (pt : ℚ × ℚ) : ℚ :=
  (il.location.lon - pt.1) * (il.location.lon - pt.1) +
  (il.location.lat - pt.2) * (il.location.lat - pt.2)

/-- The spatial index. -/
structure SpatialIndex (T : Type) where
  tree : List IndexedLocation
  items : List T
deriving Repr

/-- Model of `SpatialIndex::new()`. -/
def SpatialIndex.empty {T : Type} : SpatialIndex T := ⟨[], []⟩

/-- Model of `SpatialIndex::insert`: handle = current item count. -/
def SpatialIndex.insert {T : Type} (idx : SpatialIndex T) (item : T) (loc : Location) :
    SpatialIndex T :=
  { tree := idx.tree ++ [⟨loc, idx.items.length⟩]
    items := idx.items ++ [item] }

/-- Build a spatial index by inserting the `(item, location)` pairs in
order; every reachable `SpatialIndex` holds exactly such a state
(`from_iter`'s `bulk_load` produces the same point set). -/
def SpatialIndex.ofList {T : Type} (l : List (T × Location)) : SpatialIndex T :=
  l.foldl (fun idx p => idx.insert p.1 p.2) .empty

/-- Membership of the point of `il` in the envelope
`AABB::from_corners([min_lon, min_lat], [max_lon, max_lat])`:
`from_corners` normalises the corners componentwise (`lower` = min,
`upper` = max), and envelope containment is inclusive. -/
def inEnvelope (min_lat min_lon max_lat max_lon : ℚ) (il : IndexedLocation) : Bool :=
  decide (min min_lon max_lon ≤ il.location.lon) &&
  decide (il.location.lon ≤ max min_lon max_lon) &&
  decide (min min_lat max_lat ≤ il.location.lat) &&
  decide (il.location.lat ≤ max min_lat max_lat)

/-- Model of `SpatialIndex::query_bbox`: `locate_in_envelope` then resolve
handles to items. -/
def SpatialIndex.query_bbox {T : Type} (idx : SpatialIndex T)
    (min_lat min_lon max_lat max_lon : ℚ) : List T :=
  (idx.tree.filter (inEnvelope min_lat min_lon max_lat max_lon)).filterMap
    (fun il => idx.items[il.index]?)

/-- Model of `SpatialIndex::query_bounds`: delegate to `query_bbox` with the four
scalar fields. -/
def SpatialIndex.query_bounds {T : Type} (idx : SpatialIndex T) (b : GeoBounds) :
    List T :=
  idx.query_bbox b.min_lat b.min_lon b.max_lat b.max_lon

/-- Model of `SpatialIndex::query_radius`: `locate_within_distance([lon, lat],
radius²)` — points with squared degree-space distance `≤ radius²`. -/
def SpatialIndex.query_radius {T : Type} (idx : SpatialIndex T)
    (lat lon radius_degrees : ℚ) : List T :=
  (idx.tree.filter (fun il =>
      decide (il.distance_2 (lon, lat) ≤ radius_degrees * radius_degrees))).filterMap
    (fun il => idx.items[il.index]?)

/-- Model of `SpatialIndex::query_radius_meters`: fixed conversion
`radius_meters / 111_320.0 * 1.5`, then `query_radius`; no Haversine
post-filter. -/
def SpatialIndex.query_radius_meters {T : Type} (idx : SpatialIndex T)
    (lat lon radius_meters : ℚ) : List T :=
  idx.query_radius lat lon (radius_meters / 111320 * (3 / 2))

/-- Stable insertion by non-decreasing `distance_2` to the query point:
the model of `nearest_neighbor_iter`'s ascending-distance order (tie
order is unspecified in `rstar`; the model fixes first-inserted-first). -/
def insertByDist (pt : ℚ × ℚ) (il : IndexedLocation) :
    List IndexedLocation → List IndexedLocation
  | [] => [il]
  | jl :: rest =>
    if jl.distance_2 pt ≤ il.distance_2 pt then jl :: insertByDist pt il rest
    else il :: jl :: rest

/-- All tree points sorted by ascending `distance_2` to the query point. -/
def sortByDist (pt : ℚ × ℚ) (tree : List IndexedLocation) : List IndexedLocation :=
  tree.foldl (fun acc il => insertByDist pt il acc) []

/-- Model of `SpatialIndex::nearest`: first `k` points of the ascending-distance
enumeration, resolved to items. -/
def SpatialIndex.nearest {T : Type} (idx : SpatialIndex T) (lat lon : ℚ) (k : Nat) :
    List T :=
  ((sortByDist (lon, lat) idx.tree).take k).filterMap (fun il => idx.items[il.index]?)

/-! ## SpatiotemporalIndex (`src/index/spatiotemporal.rs`) -/

/-- The combined index: item arena, parallel location/timestamp vectors,
and the two sub-indexes storing handles into the arena. -/
structure SpatiotemporalIndex (T : Type) where
  spatial : SpatialIndex Nat
  temporal : TemporalIndex Nat
  items : List T
  locations : List Location
  timestamps : List Int
deriving Repr

/-- Model of `SpatiotemporalIndex::new()`. -/
def SpatiotemporalIndex.empty {T : Type} : SpatiotemporalIndex T :=
  ⟨.empty, .empty, [], [], []⟩

/-- Model of `SpatiotemporalIndex::insert`: push onto the three parallel vectors,
then hand the new handle to both sub-indexes. -/
def SpatiotemporalIndex.insert {T : Type} (idx : SpatiotemporalIndex T) (item : T)
    (loc : Location) (ts : Int) : SpatiotemporalIndex T :=
  { spatial := idx.spatial.insert idx.items.length loc
    temporal := idx.temporal.insert idx.items.length ts
    items := idx.items ++ [item]
    locations := idx.locations ++ [loc]
    timestamps := idx.timestamps ++ [ts] }

/-- Build a combined index from `(item, location, timestamp)` triples;
every reachable `SpatiotemporalIndex` arises this way (`new` + `insert`;
`from_iter` is the same fold). -/
def SpatiotemporalIndex.ofTriples {T : Type} (l : List (T × Location × Int)) :
    SpatiotemporalIndex T :=
  l.foldl (fun idx p => idx.insert p.1 p.2.1 p.2.2) .empty

/-- The handle set produced by `SpatiotemporalIndex::query`: the spatial
candidate handles collected into a `HashSet` (modelled by `dedup`),
intersected with the temporal candidate handle set.  The iteration
order of the Rust `HashSet` intersection is unspecified; the model keeps
first-occurrence order. -/
def SpatiotemporalIndex.queryHandles {T : Type} (idx : SpatiotemporalIndex T)
    (b : GeoBounds) (r : TimeRange) : List Nat :=
  (idx.spatial.query_bounds b).dedup.filter
    (fun h => decide (h ∈ idx.temporal.query_range r))

/-- Model of `SpatiotemporalIndex::query`: both candidate sets computed
independently, intersected, and resolved back to items. -/
def SpatiotemporalIndex.query {T : Type} (idx : SpatiotemporalIndex T)
    (b : GeoBounds) (r : TimeRange) : List T :=
  (idx.queryHandles b r).filterMap (fun h => idx.items[h]?)

/-- The handle list of `SpatiotemporalIndex::nearest_in_range`: `2 * k`
spatial nearest neighbours, filtered to the temporal candidate set,
truncated to `k` (the source requests `k * 2`). -/
def SpatiotemporalIndex.nearestInRangeHandles {T : Type} (idx : SpatiotemporalIndex T)
    (lat lon : ℚ) (k : Nat) (r : TimeRange) : List Nat :=
  (((idx.spatial.nearest lat lon (k * 2)).filter
      (fun h => decide (h ∈ idx.temporal.query_range r))).take k)

/-- Model of `SpatiotemporalIndex::nearest_in_range`: the handle list resolved to
items. -/
def SpatiotemporalIndex.nearest_in_range {T : Type} (idx : SpatiotemporalIndex T)
    (lat lon : ℚ) (k : Nat) (r : TimeRange) : List T :=
  (idx.nearestInRangeHandles lat lon k r).filterMap (fun h => idx.items[h]?)

/-! ## GridSpec / Heatmap (`src/index/spatiotemporal.rs`) -/

/-- Model of `GridSpec`: grid resolution plus bounds. -/
structure GridSpec where
  lat_cells : Nat
  lon_cells : Nat
  bounds : GeoBounds
deriving DecidableEq, Repr

/-- Model of `GridSpec::cell_size`: spans divided by cell counts (a zero cell
count gives the degenerate value 0 here; the Rust `f64` division then
yields `inf`/`NaN`, but `heatmap` panics before such a value can affect
a stored count — see `heatmapStep`). -/
def GridSpec.cell_size (g : GridSpec) : ℚ × ℚ :=
  ((g.bounds.max_lat - g.bounds.min_lat) / (g.lat_cells : ℚ),
   (g.bounds.max_lon - g.bounds.min_lon) / (g.lon_cells : ℚ))

/-- Model of `Heatmap`: grid, row-major counts, maximum cell count. -/
structure Heatmap where
  grid : GridSpec
  counts : List Nat
  max_count : Nat
deriving DecidableEq, Repr

/-- Model of `Heatmap::get`: 0 for out-of-range cell indices, else the row-major
entry (in produced heatmaps the access is always in bounds; `getD`
supplies the never-used default). -/
def Heatmap.get (hm : Heatmap) (lat_idx lon_idx : Nat) : Nat :=
  if hm.grid.lat_cells ≤ lat_idx ∨ hm.grid.lon_cells ≤ lon_idx then 0
  else hm.counts.getD (lat_idx * hm.grid.lon_cells + lon_idx) 0

/-- Model of `Heatmap::get_normalized`: `count / max_count`, 0 when
`max_count == 0`. -/
def Heatmap.get_normalized (hm : Heatmap) (lat_idx lon_idx : Nat) : ℚ :=
  if hm.max_count = 0 then 0
  else (hm.get lat_idx lon_idx : ℚ) / (hm.max_count : ℚ)

/-- One loop iteration of `SpatiotemporalIndex::heatmap`: skip locations
outside `grid.bounds`; otherwise compute the truncated cell indices,
clamp each to `cells - 1`, and increment the row-major cell.  `none`
models the panic: with a zero cell count in either dimension the
`cells - 1` subtraction underflows (debug) / the subsequent `counts[..]`
access is out of bounds (release), and any out-of-bounds increment is an
index panic.  The floor-based index matches the `as usize` truncation:
for an in-bounds location both numerators are `≥ 0`, and a `0/0` is `0`
in ℚ exactly as `NaN as usize` is `0`. -/
def heatmapStep (g : GridSpec) (counts : List Nat) (loc : Location) :
    Option (List Nat) :=
  if ¬ (g.bounds.contains loc = true) then some counts
  else if g.lat_cells = 0 ∨ g.lon_cells = 0 then none
  else
    let lat_idx := min (((loc.lat - g.bounds.min_lat) / (g.cell_size).1).floor.toNat)
      (g.lat_cells - 1)
    let lon_idx := min (((loc.lon - g.bounds.min_lon) / (g.cell_size).2).floor.toNat)
      (g.lon_cells - 1)
    let cell := lat_idx * g.lon_cells + lon_idx
    if h : cell < counts.length then
      some (counts.set cell (counts[cell] + 1))
    else none

/-- Model of `SpatiotemporalIndex::heatmap`: fold the step over the stored
locations starting from an all-zero grid, then record the maximum count
(`counts.iter().max().unwrap_or(0)`). -/
def SpatiotemporalIndex.heatmap? {T : Type} (idx : SpatiotemporalIndex T)
    (g : GridSpec) : Option Heatmap :=
  (idx.locations.foldlM (heatmapStep g)
      (List.replicate (g.lat_cells * g.lon_cells) 0)).map
    (fun counts => ⟨g, counts, counts.foldr max 0⟩)

/-! ## Temporal index: invariants

Reachable temporal indexes (`ofList l`) have strictly increasing tree
keys and in-arena handles. -/

/-- Well-formedness: keys strictly increase along the association list
and every stored handle points into the item arena. -/
def TemporalIndex.WF {T : Type} (idx : TemporalIndex T) : Prop :=
  idx.tree.Pairwise (fun p q => p.1 < q.1)
  ∧ ∀ p ∈ idx.tree, ∀ i ∈ p.2, i < idx.items.length

theorem mem_map_fst_insertTree {tree : List (Int × List Nat)} {k : Int} {i : Nat}
    {k' : Int} :
    k' ∈ (insertTree tree k i).map Prod.fst ↔ k' = k ∨ k' ∈ tree.map Prod.fst := by
  induction tree with
  | nil => simp [insertTree]
  | cons hd tl ih =>
    obtain ⟨kh, bh⟩ := hd
    by_cases h1 : k < kh
    · simp [insertTree, if_pos h1]
    · by_cases h2 : k = kh
      · subst h2
        have hstep : insertTree ((k, bh) :: tl) k i = (k, bh ++ [i]) :: tl := by
          simp [insertTree, h1]
        rw [hstep]
        simp only [List.map_cons, List.mem_cons]
        tauto
      · simp only [insertTree, if_neg h1, if_neg h2, List.map_cons, List.mem_cons, ih]
        tauto

theorem pairwise_insertTree {tree : List (Int × List Nat)} {k : Int} {i : Nat}
    (h : tree.Pairwise (fun p q => p.1 < q.1)) :
    (insertTree tree k i).Pairwise (fun p q => p.1 < q.1) := by
  induction tree with
  | nil => simp [insertTree]
  | cons hd tl ih =>
    obtain ⟨kh, bh⟩ := hd
    rw [List.pairwise_cons] at h
    by_cases h1 : k < kh
    · simp only [insertTree, if_pos h1]
      refine List.pairwise_cons.mpr ⟨?_, List.pairwise_cons.mpr ⟨h.1, h.2⟩⟩
      intro q hq
      rcases List.mem_cons.mp hq with rfl | hq'
      · exact h1
      · exact lt_trans h1 (h.1 q hq')
    · by_cases h2 : k = kh
      · subst h2
        simp only [insertTree, if_neg h1, if_pos rfl]
        exact List.pairwise_cons.mpr ⟨h.1, h.2⟩
      · simp only [insertTree, if_neg h1, if_neg h2]
        refine List.pairwise_cons.mpr ⟨?_, ih h.2⟩
        intro q hq
        have hq1 : q.1 = k ∨ q.1 ∈ tl.map Prod.fst := by
          have : q.1 ∈ (insertTree tl k i).map Prod.fst :=
            List.mem_map_of_mem Prod.fst hq
          exact mem_map_fst_insertTree.mp this
        have hkh : kh < k := by
          rcases lt_trichotomy k kh with h' | h' | h'
          · exact absurd h' h1
          · exact absurd h' h2
          · exact h'
        rcases hq1 with hq1 | hq1
        · rw [hq1]; exact hkh
        · obtain ⟨q', hq', hq'1⟩ := List.mem_map.mp hq1
          have := h.1 q' hq'
          omega

theorem handles_insertTree {tree : List (Int × List Nat)} {k : Int} {n : Nat}
    {p : Int × List Nat} (hp : p ∈ insertTree tree k n) {i : Nat} (hi : i ∈ p.2) :
    i = n ∨ ∃ q ∈ tree, i ∈ q.2 := by
  induction tree with
  | nil =>
    simp [insertTree] at hp
    subst hp
    simp at hi
    exact Or.inl hi
  | cons hd tl ih =>
    obtain ⟨kh, bh⟩ := hd
    by_cases h1 : k < kh
    · simp only [insertTree, if_pos h1] at hp
      rcases List.mem_cons.mp hp with rfl | hp'
      · simp at hi; exact Or.inl hi
      · exact Or.inr ⟨p, hp', hi⟩
    · by_cases h2 : k = kh
      · subst h2
        simp only [insertTree, if_neg h1, if_pos rfl] at hp
        rcases List.mem_cons.mp hp with rfl | hp'
        · simp only [List.mem_append, List.mem_singleton] at hi
          rcases hi with hi | hi
          · exact Or.inr ⟨(k, bh), List.mem_cons_self _ _, hi⟩
          · exact Or.inl hi
        · exact Or.inr ⟨p, List.mem_cons_of_mem _ hp', hi⟩
      · simp only [insertTree, if_neg h1, if_neg h2] at hp
        rcases List.mem_cons.mp hp with rfl | hp'
        · exact Or.inr ⟨(kh, bh), List.mem_cons_self _ _, hi⟩
        · rcases ih hp' with h | ⟨q, hq, hiq⟩
          · exact Or.inl h
          · exact Or.inr ⟨q, List.mem_cons_of_mem _ hq, hiq⟩

theorem TemporalIndex.WF.insert {T : Type} {idx : TemporalIndex T} (h : idx.WF)
    (item : T) (ts : Int) : (idx.insert item ts).WF := by
  constructor
  · exact pairwise_insertTree h.1
  · intro p hp i hi
    rcases handles_insertTree hp hi with rfl | ⟨q, hq, hiq⟩
    · simp [TemporalIndex.insert]
    · have := h.2 q hq i hiq
      simp only [TemporalIndex.insert, List.length_append, List.length_singleton]
      omega

theorem TemporalIndex.ofList_concat {T : Type} (l : List (T × Int)) (p : T × Int) :
    TemporalIndex.ofList (l ++ [p]) = (TemporalIndex.ofList l).insert p.1 p.2 := by
  simp [TemporalIndex.ofList, List.foldl_append]

theorem TemporalIndex.ofList_WF {T : Type} (l : List (T × Int)) :
    (TemporalIndex.ofList l).WF := by
  induction l using List.reverseRecOn with
  | nil => exact ⟨List.Pairwise.nil, by intro p hp; simp [TemporalIndex.ofList,
      TemporalIndex.empty] at hp⟩
  | append_singleton l p ih =>
    rw [TemporalIndex.ofList_concat]
    exact ih.insert p.1 p.2

theorem TemporalIndex.items_ofList {T : Type} (l : List (T × Int)) :
    (TemporalIndex.ofList l).items = l.map Prod.fst := by
  induction l using List.reverseRecOn with
  | nil => rfl
  | append_singleton l p ih =>
    rw [TemporalIndex.ofList_concat]
    simp [TemporalIndex.insert, ih]

/-! ## Entry-level view: the stable chronological arrangement

`chronoSorted` is the *spec-side* description of the order produced by
the B-tree: ascending by key and, within one key, insertion order (a
stable sort of the insertion sequence by key).  The correspondence
lemma `entriesOf_ofList` proves that flattening the tree bucket by
bucket yields exactly this arrangement. -/

/-- One step of a stable sort by key: insert `p` after every pair whose
key is `≤ p`'s key. -/
def insertChrono {T : Type} (p : T × Int) : List (T × Int) → List (T × Int)
  | [] => [p]
  | q :: qs => if q.2 ≤ p.2 then q :: insertChrono p qs else p :: q :: qs

/-- The stable arrangement of an insertion sequence: ascending by key,
insertion order within equal keys. -/
def chronoSorted {T : Type} (l : List (T × Int)) : List (T × Int) :=
  l.foldl (fun acc p => insertChrono p acc) []

theorem chronoSorted_append {T : Type} (l : List (T × Int)) (p : T × Int) :
    chronoSorted (l ++ [p]) = insertChrono p (chronoSorted l) := by
  simp [chronoSorted, List.foldl_append]

theorem mem_insertChrono {T : Type} {p x : T × Int} {L : List (T × Int)} :
    x ∈ insertChrono p L ↔ x = p ∨ x ∈ L := by
  induction L with
  | nil => simp [insertChrono]
  | cons q qs ih =>
    by_cases h : q.2 ≤ p.2
    · simp only [insertChrono, if_pos h, List.mem_cons, ih]
      tauto
    · simp only [insertChrono, if_neg h, List.mem_cons]

theorem insertChrono_perm {T : Type} (p : T × Int) (L : List (T × Int)) :
    (insertChrono p L).Perm (p :: L) := by
  induction L with
  | nil => simp [insertChrono]
  | cons q qs ih =>
    by_cases h : q.2 ≤ p.2
    · simp only [insertChrono, if_pos h]
      exact (ih.cons q).trans (List.Perm.swap p q qs)
    · simp [insertChrono, if_neg h]

theorem chronoSorted_perm {T : Type} (l : List (T × Int)) :
    (chronoSorted l).Perm l := by
  induction l using List.reverseRecOn with
  | nil => simp [chronoSorted]
  | append_singleton l p ih =>
    rw [chronoSorted_append]
    exact ((insertChrono_perm p (chronoSorted l)).trans (ih.cons p)).trans
      (List.perm_append_singleton p l).symm

theorem insertChrono_sorted {T : Type} {p : T × Int} {L : List (T × Int)}
    (h : L.Pairwise (fun q q' => q.2 ≤ q'.2)) :
    (insertChrono p L).Pairwise (fun q q' => q.2 ≤ q'.2) := by
  induction L with
  | nil => simp [insertChrono]
  | cons q qs ih =>
    rw [List.pairwise_cons] at h
    by_cases hq : q.2 ≤ p.2
    · simp only [insertChrono, if_pos hq]
      refine List.pairwise_cons.mpr ⟨?_, ih h.2⟩
      intro x hx
      rcases mem_insertChrono.mp hx with rfl | hx'
      · exact hq
      · exact h.1 x hx'
    · simp only [insertChrono, if_neg hq]
      refine List.pairwise_cons.mpr ⟨?_, List.pairwise_cons.mpr ⟨h.1, h.2⟩⟩
      intro x hx
      rcases List.mem_cons.mp hx with rfl | hx'
      · omega
      · have := h.1 x hx'
        omega

theorem chronoSorted_sorted {T : Type} (l : List (T × Int)) :
    (chronoSorted l).Pairwise (fun q q' => q.2 ≤ q'.2) := by
  induction l using List.reverseRecOn with
  | nil => simp [chronoSorted]
  | append_singleton l p ih =>
    rw [chronoSorted_append]
    exact insertChrono_sorted ih

theorem insertChrono_append_all_le {T : Type} (p : T × Int)
    {L1 : List (T × Int)} (L2 : List (T × Int)) (h : ∀ q ∈ L1, q.2 ≤ p.2) :
    insertChrono p (L1 ++ L2) = L1 ++ insertChrono p L2 := by
  induction L1 with
  | nil => rfl
  | cons q qs ih =>
    have hq : q.2 ≤ p.2 := h q (List.mem_cons_self _ _)
    simp only [List.cons_append, insertChrono, if_pos hq, List.append_eq]
    rw [ih (fun r hr => h r (List.mem_cons_of_mem _ hr))]

theorem insertChrono_all_gt {T : Type} (p : T × Int) {L : List (T × Int)}
    (h : ∀ q ∈ L, ¬ q.2 ≤ p.2) : insertChrono p L = p :: L := by
  cases L with
  | nil => rfl
  | cons q qs => simp [insertChrono, h q (List.mem_cons_self _ _)]

/-- Flatten the tree bucket by bucket, pairing every resolved item with
its bucket key: the entry sequence underlying `chronological()` and all
range queries. -/
def entriesOf {T : Type} (idx : TemporalIndex T) : List (T × Int) :=
  idx.tree.flatMap (fun p => (getItems idx.items p.2).map (fun t => (t, p.1)))

theorem getItems_append_of_lt {T : Type} {items : List T} {item : T} {b : List Nat}
    (h : ∀ i ∈ b, i < items.length) :
    getItems (items ++ [item]) b = getItems items b := by
  unfold getItems
  apply List.filterMap_congr
  intro i hi
  rw [List.getElem?_append_left (h i hi)]

theorem snd_of_mem_entries {T : Type} {items : List T} {b : List Nat} {k : Int}
    {q : T × Int} (h : q ∈ (getItems items b).map (fun t => (t, k))) : q.2 = k := by
  obtain ⟨t, _, rfl⟩ := List.mem_map.mp h
  rfl

theorem snd_of_mem_flat {T : Type} {items : List T} {tree : List (Int × List Nat)}
    {q : T × Int}
    (h : q ∈ tree.flatMap (fun p => (getItems items p.2).map (fun t => (t, p.1)))) :
    q.2 ∈ tree.map Prod.fst := by
  obtain ⟨p, hp, hq⟩ := List.mem_flatMap.mp h
  rw [snd_of_mem_entries hq]
  exact List.mem_map_of_mem Prod.fst hp

theorem flat_entries_items_append {T : Type} {items : List T} {item : T}
    {tree : List (Int × List Nat)}
    (hbound : ∀ p ∈ tree, ∀ i ∈ p.2, i < items.length) :
    tree.flatMap (fun p => (getItems (items ++ [item]) p.2).map (fun t => (t, p.1)))
      = tree.flatMap (fun p => (getItems items p.2).map (fun t => (t, p.1))) := by
  induction tree with
  | nil => rfl
  | cons hd tl ih =>
    simp only [List.flatMap_cons]
    rw [getItems_append_of_lt (hbound hd (List.mem_cons_self _ _)),
      ih (fun p hp => hbound p (List.mem_cons_of_mem _ hp))]

theorem entries_insert_step {T : Type} (tree : List (Int × List Nat)) (items : List T)
    (item : T) (ts : Int)
    (hsorted : tree.Pairwise (fun p q => p.1 < q.1))
    (hbound : ∀ p ∈ tree, ∀ i ∈ p.2, i < items.length) :
    (insertTree tree ts items.length).flatMap
        (fun p => (getItems (items ++ [item]) p.2).map (fun t => (t, p.1)))
      = insertChrono (item, ts)
          (tree.flatMap (fun p => (getItems items p.2).map (fun t => (t, p.1)))) := by
  induction tree with
  | nil =>
    simp [insertTree, getItems, List.getElem?_concat_length, insertChrono]
  | cons hd tl ih =>
    obtain ⟨kh, bh⟩ := hd
    rw [List.pairwise_cons] at hsorted
    have hboundh : ∀ i ∈ bh, i < items.length :=
      hbound (kh, bh) (List.mem_cons_self _ _)
    have hboundt : ∀ p ∈ tl, ∀ i ∈ p.2, i < items.length :=
      fun p hp => hbound p (List.mem_cons_of_mem _ hp)
    by_cases h1 : ts < kh
    · simp only [insertTree, if_pos h1, List.flatMap_cons]
      rw [getItems_append_of_lt hboundh, flat_entries_items_append hboundt]
      rw [insertChrono_all_gt (item, ts) ?_]
      · simp [getItems, List.getElem?_concat_length]
      · intro q hq
        simp only [List.flatMap_cons] at hq
        rcases List.mem_append.mp hq with hq | hq
        · have := snd_of_mem_entries hq
          simp only [this]
          omega
        · have hk := snd_of_mem_flat hq
          obtain ⟨p, hp, hp1⟩ := List.mem_map.mp hk
          have := hsorted.1 p hp
          omega
    · by_cases h2 : ts = kh
      · subst h2
        have hstep : insertTree ((ts, bh) :: tl) ts items.length
            = (ts, bh ++ [items.length]) :: tl := by
          simp [insertTree, h1]
        rw [hstep]
        simp only [List.flatMap_cons]
        rw [insertChrono_append_all_le (item, ts) _ ?_]
        · rw [insertChrono_all_gt (item, ts) ?_]
          · have hsplit : getItems (items ++ [item]) (bh ++ [items.length])
                = getItems items bh ++ [item] := by
              unfold getItems
              rw [List.filterMap_append]
              congr 1
              · exact getItems_append_of_lt hboundh
              · simp [List.getElem?_concat_length]
            rw [hsplit, flat_entries_items_append hboundt]
            simp
          · intro q hq
            have hk := snd_of_mem_flat hq
            obtain ⟨p, hp, hp1⟩ := List.mem_map.mp hk
            have := hsorted.1 p hp
            omega
        · intro q hq
          have := snd_of_mem_entries hq
          omega
      · have h3 : kh < ts := by omega
        simp only [insertTree, if_neg h1, if_neg h2, List.flatMap_cons]
        rw [getItems_append_of_lt hboundh, ih hsorted.2 hboundt]
        rw [insertChrono_append_all_le (item, ts) _ ?_]
        intro q hq
        have := snd_of_mem_entries hq
        omega

theorem entriesOf_insert {T : Type} (idx : TemporalIndex T) (h : idx.WF)
    (item : T) (ts : Int) :
    entriesOf (idx.insert item ts) = insertChrono (item, ts) (entriesOf idx) := by
  unfold entriesOf
  exact entries_insert_step idx.tree idx.items item ts h.1 h.2

theorem entriesOf_ofList {T : Type} (l : List (T × Int)) :
    entriesOf (TemporalIndex.ofList l) = chronoSorted l := by
  induction l using List.reverseRecOn with
  | nil => rfl
  | append_singleton l p ih =>
    rw [TemporalIndex.ofList_concat, entriesOf_insert _ (TemporalIndex.ofList_WF l),
      ih, chronoSorted_append]

/-! ## Range queries as filters of the entry sequence -/

theorem filter_key_flatMap {T : Type} (tree : List (Int × List Nat)) (items : List T)
    (P : Int → Bool) :
    (tree.filter (fun p => P p.1)).flatMap (fun p => getItems items p.2)
      = ((tree.flatMap (fun p => (getItems items p.2).map (fun t => (t, p.1)))).filter
          (fun q => P q.2)).map Prod.fst := by
  induction tree with
  | nil => rfl
  | cons hd tl ih =>
    obtain ⟨k, b⟩ := hd
    simp only [List.flatMap_cons, List.filter_append, List.map_append]
    rw [List.filter_map]
    by_cases hP : P k = true
    · rw [List.filter_cons_of_pos (by simpa using hP)]
      simp only [List.flatMap_cons]
      have hfe : (getItems items b).filter ((fun q => P q.2) ∘ fun t => (t, k))
          = getItems items b :=
        List.filter_eq_self.mpr (fun a _ => by simpa using hP)
      rw [hfe, ih]
      have hcompid : (Prod.fst ∘ fun t : T => (t, k)) = id := rfl
      simp [List.map_map, hcompid]
    · rw [List.filter_cons_of_neg (by simpa using hP)]
      have hfe : (getItems items b).filter ((fun q => P q.2) ∘ fun t => (t, k)) = [] :=
        List.filter_eq_nil_iff.mpr (fun a _ => by simpa using hP)
      rw [hfe, ih]
      simp

theorem query_range_eq_entries {T : Type} (idx : TemporalIndex T) (r : TimeRange) :
    idx.query_range r
      = ((entriesOf idx).filter (fun q => r.containsTs q.2)).map Prod.fst :=
  filter_key_flatMap idx.tree idx.items
    (fun k => decide (r.start ≤ k) && decide (k ≤ r.stop))

theorem before_eq_entries {T : Type} (idx : TemporalIndex T) (ts : Int) :
    idx.before ts
      = ((entriesOf idx).filter (fun q => decide (q.2 < ts))).map Prod.fst :=
  filter_key_flatMap idx.tree idx.items (fun k => decide (k < ts))

theorem at_or_after_eq_entries {T : Type} (idx : TemporalIndex T) (ts : Int) :
    idx.at_or_after ts
      = ((entriesOf idx).filter (fun q => decide (ts ≤ q.2))).map Prod.fst :=
  filter_key_flatMap idx.tree idx.items (fun k => decide (ts ≤ k))

/-! ## Claim theorems: temporal index -/

/-- Claim **C5.** For every `TemporalIndex` (reachable state = `ofList l`) and
`TimeRange`, `query_range` returns exactly the items whose millisecond
key lies in `[range.start_ms, range.end_ms]`, both bounds inclusive,
ordered ascending by key and, within a single key, in insertion order:
the result is the key-filter of the stable-by-key arrangement
`chronoSorted l` of the insertion sequence, which is sorted by key
(`Pairwise ≤`) and a permutation of the insertions. -/
theorem query_range_inclusive_ordered {T : Type} (l : List (T × Int)) (r : TimeRange) :
    (TemporalIndex.ofList l).query_range r
        = ((chronoSorted l).filter
            (fun q => decide (r.start ≤ q.2) && decide (q.2 ≤ r.stop))).map Prod.fst
    ∧ (chronoSorted l).Pairwise (fun q q' => q.2 ≤ q'.2)
    ∧ (chronoSorted l).Perm l := by
  refine ⟨?_, chronoSorted_sorted l, chronoSorted_perm l⟩
  rw [query_range_eq_entries, entriesOf_ofList]
  rfl

/-- Claim **C7.** For every `TemporalIndex` and timestamp `a`, `before a` and
`at_or_after a` partition the stored items: their concatenation is a
permutation of the full item list (each stored item in exactly one of
the two, counted with multiplicity), `before` consisting of the entries
with key strictly below `a` and `at_or_after` of those with key at or
above `a`. -/
theorem before_at_or_after_partition {T : Type} (l : List (T × Int)) (a : Int) :
    ((TemporalIndex.ofList l).before a ++ (TemporalIndex.ofList l).at_or_after a).Perm
        (TemporalIndex.ofList l).items
    ∧ (TemporalIndex.ofList l).before a
        = ((chronoSorted l).filter (fun q => decide (q.2 < a))).map Prod.fst
    ∧ (TemporalIndex.ofList l).at_or_after a
        = ((chronoSorted l).filter (fun q => decide (a ≤ q.2))).map Prod.fst := by
  have hb : (TemporalIndex.ofList l).before a
      = ((chronoSorted l).filter (fun q => decide (q.2 < a))).map Prod.fst := by
    rw [before_eq_entries, entriesOf_ofList]
  have ha : (TemporalIndex.ofList l).at_or_after a
      = ((chronoSorted l).filter (fun q => decide (a ≤ q.2))).map Prod.fst := by
    rw [at_or_after_eq_entries, entriesOf_ofList]
  refine ⟨?_, hb, ha⟩
  rw [hb, ha, ← List.map_append]
  have hcompl : (chronoSorted l).filter (fun q => decide (a ≤ q.2))
      = (chronoSorted l).filter (fun q => ! decide (q.2 < a)) := by
    apply List.filter_congr
    intro q _
    by_cases h : q.2 < a
    · simp [h, not_le.mpr h]
    · simp [h, not_lt.mp h]
  rw [hcompl]
  have hperm := List.filter_append_perm (fun q => decide (q.2 < a)) (chronoSorted l)
  refine (hperm.map Prod.fst).trans ?_
  rw [TemporalIndex.items_ofList]
  exact (chronoSorted_perm l).map Prod.fst

/-! ## Time range of the whole index (claim C9) -/

theorem mem_keys_ofList {T : Type} (l : List (T × Int)) (k : Int) :
    k ∈ (TemporalIndex.ofList l).tree.map Prod.fst ↔ k ∈ l.map Prod.snd := by
  induction l using List.reverseRecOn with
  | nil => rfl
  | append_singleton l p ih =>
    rw [TemporalIndex.ofList_concat]
    simp only [TemporalIndex.insert, mem_map_fst_insertTree, List.map_append,
      List.mem_append, ih]
    simp
    tauto

theorem tree_nil_iff_ofList {T : Type} (l : List (T × Int)) :
    (TemporalIndex.ofList l).tree = [] ↔ l = [] := by
  constructor
  · intro h
    cases l with
    | nil => rfl
    | cons q l' =>
      exfalso
      have : q.2 ∈ (TemporalIndex.ofList (q :: l')).tree.map Prod.fst :=
        (mem_keys_ofList _ _).mpr (by simp)
      rw [h] at this
      simp at this
  · intro h
    subst h
    rfl

theorem head_min_sorted {ks : List Int} (hs : ks.Pairwise (· < ·)) {k : Int}
    (hh : ks.head? = some k) {k' : Int} (hk' : k' ∈ ks) : k ≤ k' := by
  cases ks with
  | nil => simp at hh
  | cons a tl =>
    simp only [List.head?_cons, Option.some.injEq] at hh
    subst hh
    rcases List.mem_cons.mp hk' with rfl | h'
    · exact le_refl _
    · exact le_of_lt ((List.pairwise_cons.mp hs).1 k' h')

theorem last_max_sorted {ks : List Int} (hs : ks.Pairwise (· < ·)) {k : Int}
    (hh : ks.getLast? = some k) {k' : Int} (hk' : k' ∈ ks) : k' ≤ k := by
  induction ks with
  | nil => simp at hh
  | cons a tl ih =>
    rw [List.pairwise_cons] at hs
    cases tl with
    | nil =>
      simp only [List.getLast?_singleton, Option.some.injEq] at hh
      have hk'eq : k' = a := by simpa using hk'
      omega
    | cons b tl2 =>
      rw [List.getLast?_cons_cons] at hh
      rcases List.mem_cons.mp hk' with rfl | h'
      · have hkmem : k ∈ b :: tl2 := List.mem_of_getLast?_eq_some hh
        exact le_of_lt (hs.1 k hkmem)
      · exact ih hs.2 hh h'

/-- Claim **C9.** For every `TemporalIndex` (reachable state = `ofList l`,
with each key the `to_unix_millis` of a chrono-representable
`Timestamp`), `time_range()` is `None` iff the index is empty; on a
non-empty index it is `Some` range whose start is the earliest stored
key and whose end is the latest stored key. -/
theorem time_range_none_iff_empty {T : Type} (l : List (T × Int))
    (hk : ∀ p ∈ l, chronoMinMillis ≤ p.2 ∧ p.2 ≤ chronoMaxMillis) :
    ((TemporalIndex.ofList l).time_range = none ↔ l = [])
    ∧ ∀ r, (TemporalIndex.ofList l).time_range = some r →
        r.start ∈ l.map Prod.snd ∧ r.stop ∈ l.map Prod.snd
        ∧ ∀ k ∈ l.map Prod.snd, r.start ≤ k ∧ k ≤ r.stop := by
  have hWF := TemporalIndex.ofList_WF l
  rcases htree : (TemporalIndex.ofList l).tree with _ | ⟨hd, tl⟩
  · have hl : l = [] := (tree_nil_iff_ofList l).mp htree
    subst hl
    refine ⟨by simp [show (TemporalIndex.ofList ([] : List (T × Int))).time_range
      = none from rfl], ?_⟩
    intro r hr
    rw [show (TemporalIndex.ofList ([] : List (T × Int))).time_range
      = none from rfl] at hr
    cases hr
  · have hlne : l ≠ [] := by
      intro h
      rw [(tree_nil_iff_ofList l).mpr h] at htree
      simp at htree
    obtain ⟨lastK, hlast⟩ : ∃ k, ((hd :: tl).map Prod.fst).getLast? = some k := by
      have hsome : ((hd :: tl).map Prod.fst).getLast?.isSome := by
        rw [List.getLast?_isSome]
        simp
      exact Option.isSome_iff_exists.mp hsome
    have hsortedKeys : ((hd :: tl).map Prod.fst).Pairwise (· < ·) :=
      List.pairwise_map.mpr (htree ▸ hWF.1)
    have hh : ((hd :: tl).map Prod.fst).head? = some hd.1 := by simp
    have hheadmem : hd.1 ∈ l.map Prod.snd := by
      rw [← mem_keys_ofList, htree]
      simp
    have hlastmem : lastK ∈ l.map Prod.snd := by
      rw [← mem_keys_ofList, htree]
      exact List.mem_of_getLast?_eq_some hlast
    have hfirstRange : chronoMinMillis ≤ hd.1 ∧ hd.1 ≤ chronoMaxMillis := by
      obtain ⟨p, hp, hp2⟩ := List.mem_map.mp hheadmem
      exact hp2 ▸ hk p hp
    have hlastRange : chronoMinMillis ≤ lastK ∧ lastK ≤ chronoMaxMillis := by
      obtain ⟨p, hp, hp2⟩ := List.mem_map.mp hlastmem
      exact hp2 ▸ hk p hp
    have hfum1 : fromUnixMillis hd.1 = some hd.1 := by
      simp [fromUnixMillis, hfirstRange.1, hfirstRange.2]
    have hfum2 : fromUnixMillis lastK = some lastK := by
      simp [fromUnixMillis, hlastRange.1, hlastRange.2]
    have hcompute : (TemporalIndex.ofList l).time_range = some ⟨hd.1, lastK⟩ := by
      unfold TemporalIndex.time_range
      rw [htree]
      simp only [List.map_cons, List.head?_cons] at hlast ⊢
      simp [hlast, hfum1, hfum2]
    constructor
    · rw [hcompute]
      simp [hlne]
    · intro r hr
      rw [hcompute] at hr
      injection hr with hr
      subst hr
      refine ⟨hheadmem, hlastmem, ?_⟩
      intro k hkmem
      have hktree : k ∈ (hd :: tl).map Prod.fst := by
        rw [← htree, mem_keys_ofList]
        exact hkmem
      exact ⟨head_min_sorted hsortedKeys hh hktree,
        last_max_sorted hsortedKeys hlast hktree⟩

/-! ## Sliding window: claim C2 -/

theorem slidingAux_none {T : Type} (idx : TemporalIndex T) (w : Int) :
    slidingAux idx w none = [] := by
  unfold slidingAux
  rfl

theorem slidingAux_some {T : Type} (idx : TemporalIndex T) (w : Int) (s : Int) :
    slidingAux idx w (some s) =
      if (windowItems idx s (s + w)).isEmpty then
        slidingAux idx w (nextStart idx.tree s)
      else
        windowItems idx s (s + w) :: slidingAux idx w (nextStart idx.tree s) := by
  conv_lhs => rw [slidingAux.eq_def]

theorem slidingAux_ne_nil {T : Type} (idx : TemporalIndex T) (w : Int) :
    ∀ (n : Nat) (cur : Option Int), slidingMeasure idx.tree cur ≤ n →
      ∀ win ∈ slidingAux idx w cur, win ≠ [] := by
  intro n
  induction n with
  | zero =>
    intro cur h win hwin
    cases cur with
    | none => rw [slidingAux_none] at hwin; cases hwin
    | some s => simp [slidingMeasure] at h
  | succ n ih =>
    intro cur h win hwin
    cases cur with
    | none => rw [slidingAux_none] at hwin; cases hwin
    | some s =>
      have hlt := slidingMeasure_nextStart_lt idx.tree s
      have hle : slidingMeasure idx.tree (nextStart idx.tree s) ≤ n := by omega
      rw [slidingAux_some] at hwin
      by_cases he : (windowItems idx s (s + w)).isEmpty
      · rw [if_pos he] at hwin
        exact ih _ hle win hwin
      · rw [if_neg he] at hwin
        rcases List.mem_cons.mp hwin with rfl | hwin'
        · intro hnil
          rw [hnil] at he
          exact he rfl
        · exact ih _ hle win hwin'

/-- Claim **C2 (amended).** Every window yielded by `sliding_window` contains
at least one item — an empty window never appears in the output — and
the yielded sequence is finite (it is a `List` by construction, the
iterator's start key strictly increasing through the finitely many tree
keys). -/
theorem sliding_window_nonempty {T : Type} (l : List (T × Int)) (w : Int) :
    ∀ win ∈ (TemporalIndex.ofList l).sliding_window w, win ≠ [] := by
  intro win hwin
  unfold TemporalIndex.sliding_window at hwin
  exact slidingAux_ne_nil _ w (slidingMeasure (TemporalIndex.ofList l).tree
    (((TemporalIndex.ofList l).tree.map Prod.fst).head?)) _ le_rfl win hwin

/-- Concrete two-item index probing the window iterator: item `10` at
key 0 ms, item `20` at key 1 ms. -/
def windowProbe : TemporalIndex Nat := TemporalIndex.ofList [(10, 0), (20, 1)]

theorem windowProbe_sliding_eval :
    windowProbe.sliding_window 10 = [[10, 20], [20]] := by
  unfold TemporalIndex.sliding_window
  rw [show ((windowProbe.tree.map Prod.fst).head?) = some 0 from by decide]
  rw [slidingAux_some]
  rw [show windowItems windowProbe 0 (0 + 10) = [10, 20] from by decide]
  rw [show nextStart windowProbe.tree 0 = some 1 from by decide]
  rw [if_neg (by decide : ¬ (([10, 20] : List Nat).isEmpty = true))]
  rw [slidingAux_some]
  rw [show windowItems windowProbe 1 (1 + 10) = [20] from by decide]
  rw [show nextStart windowProbe.tree 1 = none from by decide]
  rw [if_neg (by decide : ¬ (([20] : List Nat).isEmpty = true))]
  rw [slidingAux_none]

/-- Claim **C2 counterexample.** Consecutive yielded windows *can* overlap in
time: with keys 0 ms and 1 ms and a 10 ms window, the iterator advances
to the next key (not past the window end), yielding the windows
`[0, 10)` and `[1, 11)` — the item at key 1 appears in both, so the
yielded windows neither are disjoint nor partition the keys. -/
theorem sliding_window_overlap_cex :
    windowProbe.sliding_window 10 = [[10, 20], [20]]
    ∧ ¬ List.Chain' (fun w₁ w₂ => ∀ x ∈ w₁, x ∉ w₂)
        (windowProbe.sliding_window 10) := by
  refine ⟨windowProbe_sliding_eval, ?_⟩
  rw [windowProbe_sliding_eval]
  intro h
  have := (List.chain'_cons.mp h).1 20 (by simp)
  simp at this

/-- Witness for C2 (amended): the first yielded window of the probe
index is non-empty, via `sliding_window_nonempty` at this input. -/
theorem sliding_window_nonempty_witness :
    [10, 20] ∈ (TemporalIndex.ofList [((10 : Nat), (0 : Int)), (20, 1)]).sliding_window 10
    ∧ ([10, 20] : List Nat) ≠ [] := by
  have hmem : [10, 20] ∈ (TemporalIndex.ofList
      [((10 : Nat), (0 : Int)), (20, 1)]).sliding_window 10 := by
    rw [show (TemporalIndex.ofList [((10 : Nat), (0 : Int)), (20, 1)])
      = windowProbe from rfl, windowProbe_sliding_eval]
    simp
  exact ⟨hmem, sliding_window_nonempty [((10 : Nat), (0 : Int)), (20, 1)] 10 _ hmem⟩

/-! ## Spatial index: invariants and the filter view of tree queries -/

theorem SpatialIndex.ofList_snoc {T : Type} (l : List (T × Location))
    (p : T × Location) :
    SpatialIndex.ofList (l ++ [p]) = (SpatialIndex.ofList l).insert p.1 p.2 := by
  simp [SpatialIndex.ofList, List.foldl_append]

theorem spatial_items_ofList {T : Type} (l : List (T × Location)) :
    (SpatialIndex.ofList l).items = l.map Prod.fst := by
  induction l using List.reverseRecOn with
  | nil => rfl
  | append_singleton l p ih =>
    rw [SpatialIndex.ofList_snoc]
    simp [SpatialIndex.insert, ih]

theorem spatial_index_lt_ofList {T : Type} (l : List (T × Location)) :
    ∀ il ∈ (SpatialIndex.ofList l).tree,
      il.index < (SpatialIndex.ofList l).items.length := by
  induction l using List.reverseRecOn with
  | nil => intro il h; cases h
  | append_singleton l p ih =>
    rw [SpatialIndex.ofList_snoc]
    intro il hil
    simp only [SpatialIndex.insert, List.mem_append, List.mem_singleton] at hil
    simp only [SpatialIndex.insert, List.length_append, List.length_singleton]
    rcases hil with hil | rfl
    · exact lt_trans (ih il hil) (by omega)
    · simp

/-- Every tree query of the model (`locate_in_envelope`,
`locate_within_distance`) resolves, on a reachable index, to the filter
of the insertion sequence by the same point predicate. -/
theorem spatial_locate_filter {T : Type} (l : List (T × Location)) (P : Location → Bool) :
    ((SpatialIndex.ofList l).tree.filter (fun il => P il.location)).filterMap
        (fun il => (SpatialIndex.ofList l).items[il.index]?)
      = (l.filter (fun p => P p.2)).map Prod.fst := by
  induction l using List.reverseRecOn with
  | nil => rfl
  | append_singleton l p ih =>
    rw [SpatialIndex.ofList_snoc]
    simp only [SpatialIndex.insert, List.filter_append, List.filterMap_append]
    have hold : ((SpatialIndex.ofList l).tree.filter
        (fun il => P il.location)).filterMap
          (fun il => ((SpatialIndex.ofList l).items ++ [p.1])[il.index]?)
        = ((SpatialIndex.ofList l).tree.filter
            (fun il => P il.location)).filterMap
              (fun il => (SpatialIndex.ofList l).items[il.index]?) := by
      apply List.filterMap_congr
      intro il hil
      exact List.getElem?_append_left
        (spatial_index_lt_ofList l il (List.mem_of_mem_filter hil))
    rw [hold, ih]
    by_cases hP : P p.2 = true
    · rw [List.filter_cons_of_pos (by simpa using hP), List.filter_nil,
        List.filter_cons_of_pos (by simpa using hP), List.filter_nil]
      simp [List.getElem?_concat_length]
    · rw [List.filter_cons_of_neg (by simpa using hP), List.filter_nil,
        List.filter_cons_of_neg (by simpa using hP), List.filter_nil]
      simp

/-! ## Claim C4: bounding-box query -/

/-- Claim **C4 (amended).** For every `SpatialIndex` (reachable state
= `ofList l`) and every query box with `min_lat ≤ max_lat` and
`min_lon ≤ max_lon`, `query_bbox` returns exactly the inserted items
whose coordinates lie in the closed rectangle, inclusive on all four
edges (and in insertion order in this model).  The well-formedness
hypotheses are necessary: `rstar`'s `AABB::from_corners` normalises
inverted corners, see the counterexample. -/
theorem query_bbox_closed_rect {T : Type} (l : List (T × Location)) (a b c d : ℚ)
    (hlat : a ≤ c) (hlon : b ≤ d) :
    (SpatialIndex.ofList l).query_bbox a b c d
      = (l.filter (fun p => decide (a ≤ p.2.lat) && decide (p.2.lat ≤ c)
          && decide (b ≤ p.2.lon) && decide (p.2.lon ≤ d))).map Prod.fst := by
  have heq := spatial_locate_filter l (fun loc =>
    decide (min b d ≤ loc.lon) && decide (loc.lon ≤ max b d) &&
    decide (min a c ≤ loc.lat) && decide (loc.lat ≤ max a c))
  refine Eq.trans heq ?_
  congr 1
  apply List.filter_congr
  intro p _
  simp only [min_eq_left hlon, max_eq_right hlon, min_eq_left hlat, max_eq_right hlat]
  ac_rfl

/-- Witness for C4 (amended): a 2-point index queried with a proper box
keeps exactly the inside point. -/
theorem query_bbox_closed_rect_witness :
    (0 : ℚ) ≤ 3 ∧ (0 : ℚ) ≤ 3 ∧
    (SpatialIndex.ofList [((0 : Nat), Location.mk 1 2), (1, Location.mk 5 5)]).query_bbox
        0 0 3 3
      = ([((0 : Nat), Location.mk 1 2), (1, Location.mk 5 5)].filter
          (fun p => decide ((0:ℚ) ≤ p.2.lat) && decide (p.2.lat ≤ 3)
            && decide ((0:ℚ) ≤ p.2.lon) && decide (p.2.lon ≤ 3))).map Prod.fst :=
  ⟨by norm_num, by norm_num,
    query_bbox_closed_rect [((0 : Nat), Location.mk 1 2), (1, Location.mk 5 5)]
      0 0 3 3 (by norm_num) (by norm_num)⟩

/-- Claim **C4 counterexample.** With inverted corners (`min_lat = 1 >
max_lat = -1`, same for longitude) the R-tree envelope is normalised
componentwise, so the point `(0, 0)` *is* returned although the claimed
closed-rectangle condition `min_lat ≤ lat ≤ max_lat ∧ min_lon ≤ lon ≤
max_lon` fails — the claimed iff is false for inverted boxes. -/
theorem query_bbox_inverted_cex :
    (SpatialIndex.ofList [((0 : Nat), Location.mk 0 0)]).query_bbox 1 1 (-1) (-1) = [0]
    ∧ ¬ ((1 : ℚ) ≤ (Location.mk 0 0).lat ∧ (Location.mk 0 0).lat ≤ -1
        ∧ (1 : ℚ) ≤ (Location.mk 0 0).lon ∧ (Location.mk 0 0).lon ≤ -1) := by
  constructor
  · decide
  · intro h
    have := h.1
    norm_num [Location.mk.injEq] at this

/-! ## Claim C3: metric radius query -/

/-- Spec-side definition (the claim's "true great-circle distance"):
spherical distance in meters between two WGS84 coordinates on the mean
Earth radius 6 371 000 m, via the central angle. -/
noncomputable def greatCircleDistanceMeters (lat1 lon1 lat2 lon2 : ℝ) : ℝ :=
  6371000 * Real.arccos (Real.sin (lat1 * Real.pi / 180) * Real.sin (lat2 * Real.pi / 180)
    + Real.cos (lat1 * Real.pi / 180) * Real.cos (lat2 * Real.pi / 180)
      * Real.cos ((lon2 - lon1) * Real.pi / 180))

/-- Claim **C3 (amended).** `query_radius_meters(lat, lon, r)` returns exactly
the stored points whose *planar degree-space Euclidean* distance to the
query point is at most `r / 111320 × 1.5` (inclusive), using the fixed
conversion constant and the 1.5× buffer with no Haversine post-filter.
It is **not** a superset of the true great-circle ball: under-fetch
occurs where longitude degrees are short (see the counterexample at the
pole). -/
theorem query_radius_meters_exact {T : Type} (l : List (T × Location)) (lat lon r : ℚ) :
    (SpatialIndex.ofList l).query_radius_meters lat lon r
      = (l.filter (fun p =>
          decide ((p.2.lon - lon) * (p.2.lon - lon) + (p.2.lat - lat) * (p.2.lat - lat)
            ≤ (r / 111320 * (3 / 2)) * (r / 111320 * (3 / 2))))).map Prod.fst :=
  spatial_locate_filter l (fun loc =>
    decide ((loc.lon - lon) * (loc.lon - lon) + (loc.lat - lat) * (loc.lat - lat)
      ≤ (r / 111320 * (3 / 2)) * (r / 111320 * (3 / 2))))

/-- Claim **C3 counterexample.** A point stored at the north pole `(90, 0)`
has true great-circle distance 0 m ≤ 1 m from the query point
`(90, 180)` (both are the pole), yet `query_radius_meters 90 180 1`
misses it: the degree-space distance is 180° while the buffered degree
radius is only `1.5/111320`°.  The result is therefore not a superset
of the true radius-`r` ball — the code *under-fetches* here. -/
theorem query_radius_meters_under_fetch_cex :
    greatCircleDistanceMeters 90 0 90 180 ≤ 1
    ∧ (0 : Nat) ∉ (SpatialIndex.ofList
        [((0 : Nat), Location.mk 90 0)]).query_radius_meters 90 180 1 := by
  constructor
  · unfold greatCircleDistanceMeters
    have h1 : (90 : ℝ) * Real.pi / 180 = Real.pi / 2 := by ring
    have h2 : ((180 : ℝ) - 0) * Real.pi / 180 = Real.pi := by ring
    rw [h1, h2, Real.sin_pi_div_two, Real.cos_pi_div_two]
    norm_num [Real.arccos_one]
  · rw [query_radius_meters_exact]
    rw [List.filter_cons_of_neg ?_, List.filter_nil]
    · simp
    · simp only [decide_eq_true_eq]
      norm_num [Location.mk.injEq]

/-! ## Spatiotemporal index: links to the sub-index models -/

/-- The `(handle, location)` pairs forwarded to the spatial sub-index by
the insertion sequence `l`. -/
def spPairs {T : Type} (l : List (T × Location × Int)) : List (Nat × Location) :=
  l.enum.map (fun p => (p.1, p.2.2.1))

/-- The `(handle, key)` pairs forwarded to the temporal sub-index by the
insertion sequence `l`. -/
def tsPairs {T : Type} (l : List (T × Location × Int)) : List (Nat × Int) :=
  l.enum.map (fun p => (p.1, p.2.2.2))

theorem SpatiotemporalIndex.ofTriples_append {T : Type}
    (l : List (T × Location × Int)) (p : T × Location × Int) :
    SpatiotemporalIndex.ofTriples (l ++ [p])
      = (SpatiotemporalIndex.ofTriples l).insert p.1 p.2.1 p.2.2 := by
  simp [SpatiotemporalIndex.ofTriples, List.foldl_append]

theorem ofTriples_items {T : Type} (l : List (T × Location × Int)) :
    (SpatiotemporalIndex.ofTriples l).items = l.map Prod.fst := by
  induction l using List.reverseRecOn with
  | nil => rfl
  | append_singleton l p ih =>
    rw [SpatiotemporalIndex.ofTriples_append]
    simp [SpatiotemporalIndex.insert, ih]

theorem ofTriples_locations {T : Type} (l : List (T × Location × Int)) :
    (SpatiotemporalIndex.ofTriples l).locations = l.map (fun p => p.2.1) := by
  induction l using List.reverseRecOn with
  | nil => rfl
  | append_singleton l p ih =>
    rw [SpatiotemporalIndex.ofTriples_append]
    simp [SpatiotemporalIndex.insert, ih]

theorem ofTriples_timestamps {T : Type} (l : List (T × Location × Int)) :
    (SpatiotemporalIndex.ofTriples l).timestamps = l.map (fun p => p.2.2) := by
  induction l using List.reverseRecOn with
  | nil => rfl
  | append_singleton l p ih =>
    rw [SpatiotemporalIndex.ofTriples_append]
    simp [SpatiotemporalIndex.insert, ih]

theorem spPairs_append {T : Type} (l : List (T × Location × Int))
    (p : T × Location × Int) :
    spPairs (l ++ [p]) = spPairs l ++ [(l.length, p.2.1)] := by
  unfold spPairs
  rw [List.enum_append]
  simp [List.enumFrom]

theorem tsPairs_append {T : Type} (l : List (T × Location × Int))
    (p : T × Location × Int) :
    tsPairs (l ++ [p]) = tsPairs l ++ [(l.length, p.2.2)] := by
  unfold tsPairs
  rw [List.enum_append]
  simp [List.enumFrom]

theorem ofTriples_spatial {T : Type} (l : List (T × Location × Int)) :
    (SpatiotemporalIndex.ofTriples l).spatial = SpatialIndex.ofList (spPairs l) := by
  induction l using List.reverseRecOn with
  | nil => rfl
  | append_singleton l p ih =>
    rw [SpatiotemporalIndex.ofTriples_append, spPairs_append,
      SpatialIndex.ofList_snoc, ← ih]
    show (SpatiotemporalIndex.ofTriples l).spatial.insert
        (SpatiotemporalIndex.ofTriples l).items.length p.2.1 = _
    rw [ofTriples_items]
    simp

theorem ofTriples_temporal {T : Type} (l : List (T × Location × Int)) :
    (SpatiotemporalIndex.ofTriples l).temporal = TemporalIndex.ofList (tsPairs l) := by
  induction l using List.reverseRecOn with
  | nil => rfl
  | append_singleton l p ih =>
    rw [SpatiotemporalIndex.ofTriples_append, tsPairs_append,
      TemporalIndex.ofList_concat, ← ih]
    show (SpatiotemporalIndex.ofTriples l).temporal.insert
        (SpatiotemporalIndex.ofTriples l).items.length p.2.2 = _
    rw [ofTriples_items]
    simp

theorem mem_spPairs {T : Type} {l : List (T × Location × Int)} {h : Nat}
    {loc : Location} :
    (h, loc) ∈ spPairs l ↔ ∃ trip, l[h]? = some trip ∧ trip.2.1 = loc := by
  unfold spPairs
  constructor
  · intro hm
    obtain ⟨q, hmem, heq⟩ := List.mem_map.mp hm
    have h1 : q.1 = h := congrArg Prod.fst heq
    have h2 : q.2.2.1 = loc := congrArg Prod.snd heq
    have hget : l[h]? = some q.2 := by
      rw [← h1]
      exact List.mk_mem_enum_iff_getElem?.mp (show (q.1, q.2) ∈ l.enum from hmem)
    exact ⟨q.2, hget, h2⟩
  · rintro ⟨trip, htrip, rfl⟩
    exact List.mem_map.mpr ⟨(h, trip), List.mk_mem_enum_iff_getElem?.mpr htrip, rfl⟩

theorem mem_tsPairs {T : Type} {l : List (T × Location × Int)} {h : Nat} {ts : Int} :
    (h, ts) ∈ tsPairs l ↔ ∃ trip, l[h]? = some trip ∧ trip.2.2 = ts := by
  unfold tsPairs
  constructor
  · intro hm
    obtain ⟨q, hmem, heq⟩ := List.mem_map.mp hm
    have h1 : q.1 = h := congrArg Prod.fst heq
    have h2 : q.2.2.2 = ts := congrArg Prod.snd heq
    have hget : l[h]? = some q.2 := by
      rw [← h1]
      exact List.mk_mem_enum_iff_getElem?.mp (show (q.1, q.2) ∈ l.enum from hmem)
    exact ⟨q.2, hget, h2⟩
  · rintro ⟨trip, htrip, rfl⟩
    exact List.mem_map.mpr ⟨(h, trip), List.mk_mem_enum_iff_getElem?.mpr htrip, rfl⟩

theorem mem_query_bounds_ofTriples {T : Type} (l : List (T × Location × Int))
    (b : GeoBounds) (hlat : b.min_lat ≤ b.max_lat) (hlon : b.min_lon ≤ b.max_lon)
    (h : Nat) :
    h ∈ (SpatiotemporalIndex.ofTriples l).spatial.query_bounds b ↔
      ∃ loc, (SpatiotemporalIndex.ofTriples l).locations[h]? = some loc
        ∧ b.contains loc = true := by
  rw [ofTriples_spatial, ofTriples_locations]
  show h ∈ (SpatialIndex.ofList (spPairs l)).query_bbox
      b.min_lat b.min_lon b.max_lat b.max_lon ↔ _
  rw [query_bbox_closed_rect _ _ _ _ _ hlat hlon]
  constructor
  · intro hm
    obtain ⟨pr, hpr, rfl⟩ := List.mem_map.mp hm
    have hmem := List.mem_of_mem_filter hpr
    have hpred := List.of_mem_filter hpr
    obtain ⟨trip, htrip, hloc⟩ := mem_spPairs.mp (show (pr.1, pr.2) ∈ spPairs l from hmem)
    refine ⟨pr.2, ?_, ?_⟩
    · rw [List.getElem?_map, htrip, Option.map_some']
      rw [hloc]
    · simpa [GeoBounds.contains] using hpred
  · rintro ⟨loc, hloc, hcont⟩
    rw [List.getElem?_map] at hloc
    obtain ⟨trip, htrip, htl⟩ := Option.map_eq_some'.mp hloc
    have hmem : (h, loc) ∈ spPairs l := mem_spPairs.mpr ⟨trip, htrip, htl⟩
    refine List.mem_map.mpr ⟨(h, loc), List.mem_filter.mpr ⟨hmem, ?_⟩, rfl⟩
    simpa [GeoBounds.contains] using hcont

theorem mem_query_range_ofTriples {T : Type} (l : List (T × Location × Int))
    (r : TimeRange) (h : Nat) :
    h ∈ (SpatiotemporalIndex.ofTriples l).temporal.query_range r ↔
      ∃ ts, (SpatiotemporalIndex.ofTriples l).timestamps[h]? = some ts
        ∧ r.containsTs ts = true := by
  rw [ofTriples_temporal, ofTriples_timestamps,
    (query_range_inclusive_ordered (tsPairs l) r).1]
  constructor
  · intro hm
    obtain ⟨pr, hpr, rfl⟩ := List.mem_map.mp hm
    have hmem := (chronoSorted_perm (tsPairs l)).mem_iff.mp (List.mem_of_mem_filter hpr)
    have hpred := List.of_mem_filter hpr
    obtain ⟨trip, htrip, hts⟩ := mem_tsPairs.mp (show (pr.1, pr.2) ∈ tsPairs l from hmem)
    refine ⟨pr.2, ?_, ?_⟩
    · rw [List.getElem?_map, htrip, Option.map_some']
      rw [hts]
    · simpa [TimeRange.containsTs] using hpred
  · rintro ⟨ts, hts, hcont⟩
    rw [List.getElem?_map] at hts
    obtain ⟨trip, htrip, htl⟩ := Option.map_eq_some'.mp hts
    have hmem : (h, ts) ∈ chronoSorted (tsPairs l) :=
      (chronoSorted_perm (tsPairs l)).mem_iff.mpr (mem_tsPairs.mpr ⟨trip, htrip, htl⟩)
    refine List.mem_map.mpr ⟨(h, ts), List.mem_filter.mpr ⟨hmem, ?_⟩, rfl⟩
    simpa [TimeRange.containsTs] using hcont

/-! ## Claim C1: combined space-time query -/

/-- Claim **C1 (amended).** For every `SpatiotemporalIndex` (reachable state
= `ofTriples l`), every `TimeRange` and every *well-formed*
`GeoBounds` (`min ≤ max` on both axes): `query(bounds, range)` resolves
the handle set `queryHandles` to items; that handle set is duplicate
free, equals the intersection of the independently computed spatial and
temporal candidate handle sets, and contains a handle exactly when the
stored location satisfies `bounds.contains` and the stored timestamp
satisfies `range.contains`.  The well-formedness hypotheses are
necessary: for inverted bounds the R-tree normalises the corners while
`bounds.contains` is identically false, see the counterexample. -/
theorem query_intersection_spec {T : Type} (l : List (T × Location × Int))
    (b : GeoBounds) (r : TimeRange)
    (hlat : b.min_lat ≤ b.max_lat) (hlon : b.min_lon ≤ b.max_lon) :
    (SpatiotemporalIndex.ofTriples l).query b r
        = ((SpatiotemporalIndex.ofTriples l).queryHandles b r).filterMap
            (fun h => (SpatiotemporalIndex.ofTriples l).items[h]?)
    ∧ ((SpatiotemporalIndex.ofTriples l).queryHandles b r).Nodup
    ∧ (∀ h, h ∈ (SpatiotemporalIndex.ofTriples l).queryHandles b r ↔
        h ∈ (SpatiotemporalIndex.ofTriples l).spatial.query_bounds b
        ∧ h ∈ (SpatiotemporalIndex.ofTriples l).temporal.query_range r)
    ∧ (∀ h, h ∈ (SpatiotemporalIndex.ofTriples l).queryHandles b r ↔
        ∃ loc ts, (SpatiotemporalIndex.ofTriples l).locations[h]? = some loc
          ∧ (SpatiotemporalIndex.ofTriples l).timestamps[h]? = some ts
          ∧ b.contains loc = true ∧ r.containsTs ts = true) := by
  have hmemiff : ∀ h, h ∈ (SpatiotemporalIndex.ofTriples l).queryHandles b r ↔
      h ∈ (SpatiotemporalIndex.ofTriples l).spatial.query_bounds b
      ∧ h ∈ (SpatiotemporalIndex.ofTriples l).temporal.query_range r := by
    intro h
    unfold SpatiotemporalIndex.queryHandles
    rw [List.mem_filter, List.mem_dedup]
    simp
  refine ⟨rfl, List.Nodup.filter _ (List.nodup_dedup _), hmemiff, ?_⟩
  intro h
  rw [hmemiff h, mem_query_bounds_ofTriples l b hlat hlon h,
    mem_query_range_ofTriples l r h]
  constructor
  · rintro ⟨⟨loc, hloc, hcl⟩, ⟨ts, hts, hct⟩⟩
    exact ⟨loc, ts, hloc, hts, hcl, hct⟩
  · rintro ⟨loc, ts, hloc, hts, hcl, hct⟩
    exact ⟨⟨loc, hloc, hcl⟩, ⟨ts, hts, hct⟩⟩

/-- Concrete three-item combined index: handle 0 inside box and range,
handle 1 outside the box, handle 2 inside the box but outside the
range. -/
def stProbe : List (Nat × Location × Int) :=
  [(0, Location.mk 1 1, 5), (1, Location.mk 10 10, 5), (2, Location.mk 1 1, 50)]

/-- Witness for C1 (amended) at `stProbe`, the box `[0,2]×[0,2]` and the
range `[0,10]`, via `query_intersection_spec`. -/
theorem query_intersection_spec_witness :
    ((GeoBounds.mk 0 0 2 2).min_lat ≤ (GeoBounds.mk 0 0 2 2).max_lat)
    ∧ ((GeoBounds.mk 0 0 2 2).min_lon ≤ (GeoBounds.mk 0 0 2 2).max_lon)
    ∧ ((SpatiotemporalIndex.ofTriples stProbe).query (GeoBounds.mk 0 0 2 2)
          (TimeRange.mk 0 10)
        = ((SpatiotemporalIndex.ofTriples stProbe).queryHandles (GeoBounds.mk 0 0 2 2)
            (TimeRange.mk 0 10)).filterMap
              (fun h => (SpatiotemporalIndex.ofTriples stProbe).items[h]?)
      ∧ ((SpatiotemporalIndex.ofTriples stProbe).queryHandles (GeoBounds.mk 0 0 2 2)
          (TimeRange.mk 0 10)).Nodup
      ∧ (∀ h, h ∈ (SpatiotemporalIndex.ofTriples stProbe).queryHandles
            (GeoBounds.mk 0 0 2 2) (TimeRange.mk 0 10) ↔
          h ∈ (SpatiotemporalIndex.ofTriples stProbe).spatial.query_bounds
            (GeoBounds.mk 0 0 2 2)
          ∧ h ∈ (SpatiotemporalIndex.ofTriples stProbe).temporal.query_range
            (TimeRange.mk 0 10))
      ∧ (∀ h, h ∈ (SpatiotemporalIndex.ofTriples stProbe).queryHandles
            (GeoBounds.mk 0 0 2 2) (TimeRange.mk 0 10) ↔
          ∃ loc ts,
            (SpatiotemporalIndex.ofTriples stProbe).locations[h]? = some loc
            ∧ (SpatiotemporalIndex.ofTriples stProbe).timestamps[h]? = some ts
            ∧ (GeoBounds.mk 0 0 2 2).contains loc = true
            ∧ (TimeRange.mk 0 10).containsTs ts = true)) :=
  ⟨by norm_num, by norm_num,
    query_intersection_spec stProbe (GeoBounds.mk 0 0 2 2) (TimeRange.mk 0 10)
      (by norm_num) (by norm_num)⟩

/-- Claim **C1 counterexample.** With inverted bounds (`min_lat = 1 > max_lat
= -1`, likewise for longitude) `query` returns the item stored at
`(0, 0)` even though `bounds.contains` rejects its location, refuting
"returns exactly the items satisfying both `bounds.contains(location)`
and `range.contains(timestamp)`" as universally stated. -/
theorem query_inverted_bounds_cex :
    (SpatiotemporalIndex.ofTriples [((0 : Nat), Location.mk 0 0, (0 : Int))]).query
        (GeoBounds.mk 1 1 (-1) (-1)) (TimeRange.mk 0 0) = [0]
    ∧ (GeoBounds.mk 1 1 (-1) (-1)).contains (Location.mk 0 0) = false
    ∧ (TimeRange.mk 0 0).containsTs 0 = true := by
  refine ⟨by decide, by decide, by decide⟩

/-! ## Claim C8: bounded nearest-in-range heuristic -/

theorem filterMap_length_of_isSome {α β : Type} (f : α → Option β) (l : List α)
    (h : ∀ a ∈ l, (f a).isSome = true) : (l.filterMap f).length = l.length := by
  induction l with
  | nil => rfl
  | cons a t ih =>
    rw [List.filterMap_cons]
    rcases hfa : f a with _ | b
    · have := h a (List.mem_cons_self _ _)
      rw [hfa] at this
      cases this
    · simp only [List.length_cons]
      rw [ih (fun x hx => h x (List.mem_cons_of_mem _ hx))]

theorem spatial_nearest_handle_lt {T : Type} (l : List (T × Location × Int))
    (lat lon : ℚ) (m : Nat) :
    ∀ h ∈ (SpatiotemporalIndex.ofTriples l).spatial.nearest lat lon m,
      h < (SpatiotemporalIndex.ofTriples l).items.length := by
  intro h hm
  rw [ofTriples_spatial] at hm
  unfold SpatialIndex.nearest at hm
  obtain ⟨il, _, hil⟩ := List.mem_filterMap.mp hm
  have hmem : h ∈ (SpatialIndex.ofList (spPairs l)).items := List.getElem?_mem hil
  rw [spatial_items_ofList] at hmem
  obtain ⟨pr, hpr, rfl⟩ := List.mem_map.mp hmem
  obtain ⟨trip, htrip, _⟩ := mem_spPairs.mp (show (pr.1, pr.2) ∈ spPairs l from hpr)
  have hlt : pr.1 < l.length := (List.getElem?_eq_some_iff.mp htrip).1
  rw [ofTriples_items, List.length_map]
  exact hlt

/-- Claim **C8.** For every `SpatiotemporalIndex`, query point, `k` and
range: `nearest_in_range` resolves its handle list to items; it returns
at most `k` items; its length is exactly `min k` (number of the `2*k`
spatial nearest neighbours whose handle lies in the temporal candidate
set) — so when fewer than `k` of the `2*k` candidates qualify it
returns fewer than `k` results rather than expanding the search; and
every returned handle is one of the `2*k` spatial nearest neighbours
and lies in the temporal candidate set. -/
theorem nearest_in_range_bounded {T : Type} (l : List (T × Location × Int))
    (lat lon : ℚ) (k : Nat) (r : TimeRange) :
    (SpatiotemporalIndex.ofTriples l).nearest_in_range lat lon k r
        = ((SpatiotemporalIndex.ofTriples l).nearestInRangeHandles lat lon k r).filterMap
            (fun h => (SpatiotemporalIndex.ofTriples l).items[h]?)
    ∧ ((SpatiotemporalIndex.ofTriples l).nearest_in_range lat lon k r).length ≤ k
    ∧ ((SpatiotemporalIndex.ofTriples l).nearest_in_range lat lon k r).length
        = min k (((SpatiotemporalIndex.ofTriples l).spatial.nearest lat lon (k * 2)).filter
            (fun h => decide (h ∈ (SpatiotemporalIndex.ofTriples l).temporal.query_range r))).length
    ∧ (∀ h ∈ (SpatiotemporalIndex.ofTriples l).nearestInRangeHandles lat lon k r,
        h ∈ (SpatiotemporalIndex.ofTriples l).spatial.nearest lat lon (k * 2)
        ∧ h ∈ (SpatiotemporalIndex.ofTriples l).temporal.query_range r) := by
  have hsub : ∀ h ∈ (SpatiotemporalIndex.ofTriples l).nearestInRangeHandles lat lon k r,
      h ∈ (SpatiotemporalIndex.ofTriples l).spatial.nearest lat lon (k * 2)
      ∧ h ∈ (SpatiotemporalIndex.ofTriples l).temporal.query_range r := by
    intro h hm
    unfold SpatiotemporalIndex.nearestInRangeHandles at hm
    have hf := List.mem_of_mem_take hm
    exact ⟨List.mem_of_mem_filter hf, by simpa using List.of_mem_filter hf⟩
  have hlen : ((SpatiotemporalIndex.ofTriples l).nearest_in_range lat lon k r).length
      = ((SpatiotemporalIndex.ofTriples l).nearestInRangeHandles lat lon k r).length := by
    unfold SpatiotemporalIndex.nearest_in_range
    apply filterMap_length_of_isSome
    intro h hm
    have hlt := spatial_nearest_handle_lt l lat lon (k * 2) h (hsub h hm).1
    rw [Option.isSome_iff_exists]
    exact ⟨_, (List.getElem?_eq_some_getElem_iff _ _ hlt).mpr trivial⟩
  refine ⟨rfl, ?_, ?_, hsub⟩
  · rw [hlen]
    unfold SpatiotemporalIndex.nearestInRangeHandles
    simp [List.length_take]
  · rw [hlen]
    unfold SpatiotemporalIndex.nearestInRangeHandles
    simp [List.length_take]

/-- Witness for C8 at `stProbe` (three items), `k = 1`, the query point
`(0, 0)` and range `[0, 10]`, via `nearest_in_range_bounded`. -/
theorem nearest_in_range_bounded_witness :
    (SpatiotemporalIndex.ofTriples stProbe).nearest_in_range 0 0 1 (TimeRange.mk 0 10)
        = ((SpatiotemporalIndex.ofTriples stProbe).nearestInRangeHandles 0 0 1
            (TimeRange.mk 0 10)).filterMap
              (fun h => (SpatiotemporalIndex.ofTriples stProbe).items[h]?)
    ∧ ((SpatiotemporalIndex.ofTriples stProbe).nearest_in_range 0 0 1
        (TimeRange.mk 0 10)).length ≤ 1
    ∧ ((SpatiotemporalIndex.ofTriples stProbe).nearest_in_range 0 0 1
        (TimeRange.mk 0 10)).length
        = min 1 (((SpatiotemporalIndex.ofTriples stProbe).spatial.nearest 0 0 (1 * 2)).filter
            (fun h => decide (h ∈ (SpatiotemporalIndex.ofTriples stProbe).temporal.query_range
              (TimeRange.mk 0 10)))).length
    ∧ (∀ h ∈ (SpatiotemporalIndex.ofTriples stProbe).nearestInRangeHandles 0 0 1
          (TimeRange.mk 0 10),
        h ∈ (SpatiotemporalIndex.ofTriples stProbe).spatial.nearest 0 0 (1 * 2)
        ∧ h ∈ (SpatiotemporalIndex.ofTriples stProbe).temporal.query_range
            (TimeRange.mk 0 10)) :=
  nearest_in_range_bounded stProbe 0 0 1 (TimeRange.mk 0 10)

/-! ## Heatmap: fold invariants and claims C6, C10 -/

theorem sum_set_incr : ∀ (cs : List Nat) (i : Nat) (h : i < cs.length),
    (cs.set i (cs[i] + 1)).sum = cs.sum + 1 := by
  intro cs
  induction cs with
  | nil => intro i h; simp at h
  | cons a t ih =>
    intro i h
    cases i with
    | zero =>
      simp only [List.set_cons_zero, List.sum_cons, List.getElem_cons_zero]
      omega
    | succ n =>
      simp only [List.set_cons_succ, List.sum_cons, List.getElem_cons_succ]
      rw [ih n (by simpa using h)]
      omega

theorem heatmap_fold_spec (g : GridSpec) :
    ∀ (locs : List Location) (counts counts' : List Nat),
      locs.foldlM (heatmapStep g) counts = some counts' →
      counts'.length = counts.length
      ∧ counts'.sum = counts.sum
          + (locs.filter (fun loc => g.bounds.contains loc)).length := by
  intro locs
  induction locs with
  | nil =>
    intro counts counts' h
    simp only [List.foldlM_nil] at h
    injection h with h
    subst h
    simp
  | cons loc rest ih =>
    intro counts counts' h
    rw [List.foldlM_cons] at h
    rcases hstep : heatmapStep g counts loc with _ | c1
    · rw [hstep] at h
      exact Option.noConfusion h
    · rw [hstep] at h
      obtain ⟨hl, hs⟩ := ih c1 counts' h
      simp only [heatmapStep] at hstep
      split at hstep
      · -- location outside the grid bounds: counts unchanged, filter drops it
        injection hstep with hstep
        subst hstep
        rename_i hcont
        rw [List.filter_cons_of_neg (by simpa using hcont)]
        exact ⟨hl, hs⟩
      · rename_i hcont
        have hcont' : g.bounds.contains loc = true := by
          by_contra hc
          exact hcont (by simpa using hc)
        split at hstep
        · cases hstep
        · split at hstep
          · injection hstep with hstep
            subst hstep
            rename_i hcell
            rw [List.filter_cons_of_pos (by simpa using hcont')]
            refine ⟨by simpa using hl, ?_⟩
            rw [hs, sum_set_incr counts _ hcell]
            simp only [List.length_cons]
            omega
          · cases hstep

theorem heatmap_fold_total (g : GridSpec) (hlat : 1 ≤ g.lat_cells)
    (hlon : 1 ≤ g.lon_cells) :
    ∀ (locs : List Location) (counts : List Nat),
      counts.length = g.lat_cells * g.lon_cells →
      ∃ counts', locs.foldlM (heatmapStep g) counts = some counts' := by
  intro locs
  induction locs with
  | nil =>
    intro counts _
    exact ⟨counts, rfl⟩
  | cons loc rest ih =>
    intro counts hlen
    rcases hstep : heatmapStep g counts loc with _ | c1
    · exfalso
      simp only [heatmapStep] at hstep
      split at hstep
      · cases hstep
      · split at hstep
        · rename_i hz
          omega
        · split at hstep
          · cases hstep
          · rename_i hcell
            apply hcell
            rw [hlen]
            have h2 : min (((loc.lon - g.bounds.min_lon) / (g.cell_size).2).floor.toNat)
                (g.lon_cells - 1) ≤ g.lon_cells - 1 := Nat.min_le_right _ _
            have h3 : min (((loc.lat - g.bounds.min_lat) / (g.cell_size).1).floor.toNat)
                  (g.lat_cells - 1) * g.lon_cells
                ≤ (g.lat_cells - 1) * g.lon_cells :=
              Nat.mul_le_mul_right _ (Nat.min_le_right _ _)
            have h4 : (g.lat_cells - 1) * g.lon_cells + g.lon_cells
                = g.lat_cells * g.lon_cells := by
              obtain ⟨m, hm⟩ : ∃ m, g.lat_cells = m + 1 := ⟨g.lat_cells - 1, by omega⟩
              rw [hm, Nat.succ_mul]
              simp
            omega
    · have hc1len : c1.length = counts.length := by
        simp only [heatmapStep] at hstep
        split at hstep
        · injection hstep with hstep
          subst hstep
          rfl
        · split at hstep
          · cases hstep
          · split at hstep
            · injection hstep with hstep
              subst hstep
              exact List.length_set counts _ _
            · cases hstep
      rw [List.foldlM_cons, hstep]
      exact ih c1 (by rw [hc1len, hlen])

/-- Claim **C10.** `heatmap(grid)` is total (panic-free) whenever
`grid.lat_cells ≥ 1` and `grid.lon_cells ≥ 1` — every clamped cell
index lands inside the counts vector.  Without the precondition the
function panics: with `lat_cells = 0` and one location inside
`grid.bounds`, the `cells - 1` subtraction underflows and the cell
access is out of bounds (the `Option` model returns `none`, witnessed
at a concrete input in the second conjunct). -/
theorem heatmap_total_and_underflow :
    (∀ (T : Type) (l : List (T × Location × Int)) (g : GridSpec),
        1 ≤ g.lat_cells → 1 ≤ g.lon_cells →
        ((SpatiotemporalIndex.ofTriples l).heatmap? g).isSome = true)
    ∧ (SpatiotemporalIndex.ofTriples
        [((0 : Nat), Location.mk 0 0, (0 : Int))]).heatmap?
          (GridSpec.mk 0 5 (GeoBounds.mk 0 0 1 1)) = none := by
  constructor
  · intro T l g hlat hlon
    unfold SpatiotemporalIndex.heatmap?
    obtain ⟨counts', h⟩ := heatmap_fold_total g hlat hlon
      (SpatiotemporalIndex.ofTriples l).locations
      (List.replicate (g.lat_cells * g.lon_cells) 0) (by simp)
    rw [h]
    rfl
  · decide

/-- Witness for C10's universal part: the 1×1 grid over `[0,1]²` with a
single stored location succeeds, via `heatmap_total_and_underflow`. -/
theorem heatmap_total_witness :
    1 ≤ (GridSpec.mk 1 1 (GeoBounds.mk 0 0 1 1)).lat_cells
    ∧ 1 ≤ (GridSpec.mk 1 1 (GeoBounds.mk 0 0 1 1)).lon_cells
    ∧ ((SpatiotemporalIndex.ofTriples
        [((0 : Nat), Location.mk 0 0, (0 : Int))]).heatmap?
          (GridSpec.mk 1 1 (GeoBounds.mk 0 0 1 1))).isSome = true :=
  ⟨by norm_num, by norm_num,
    heatmap_total_and_underflow.1 Nat [((0 : Nat), Location.mk 0 0, (0 : Int))]
      (GridSpec.mk 1 1 (GeoBounds.mk 0 0 1 1)) (by norm_num) (by norm_num)⟩

theorem foldr_max_attained : ∀ (cs : List Nat), cs.foldr max 0 ≠ 0 →
    ∃ i, ∃ h : i < cs.length, cs[i] = cs.foldr max 0 := by
  intro cs
  induction cs with
  | nil => intro h; simp at h
  | cons a t ih =>
    intro h
    simp only [List.foldr_cons] at h ⊢
    by_cases hat : t.foldr max 0 ≤ a
    · exact ⟨0, by simp, by simp [Nat.max_eq_left hat]⟩
    · have hmax : max a (t.foldr max 0) = t.foldr max 0 :=
        Nat.max_eq_right (le_of_not_le hat)
      rw [hmax]
      have hne : t.foldr max 0 ≠ 0 := by omega
      obtain ⟨i, hi, hei⟩ := ih hne
      exact ⟨i + 1, by simpa using hi, by simpa using hei⟩

/-- Claim **C6.** For every `SpatiotemporalIndex` and `GridSpec`, whenever
`heatmap(grid)` produces a `Heatmap` (no panic): the sum of all cell
counts equals the number of stored locations inside `grid.bounds`;
`max_count` is the maximum single-cell count; when `max_count ≠ 0` some
in-grid cell holds `max_count` and `get_normalized` there is exactly 1;
and when `max_count = 0`, `get_normalized` is 0 everywhere. -/
theorem heatmap_conservation {T : Type} (l : List (T × Location × Int)) (g : GridSpec)
    (hm : Heatmap) (h : (SpatiotemporalIndex.ofTriples l).heatmap? g = some hm) :
    hm.counts.sum = ((SpatiotemporalIndex.ofTriples l).locations.filter
        (fun loc => g.bounds.contains loc)).length
    ∧ hm.grid = g
    ∧ hm.max_count = hm.counts.foldr max 0
    ∧ (hm.max_count ≠ 0 →
        ∃ i j, hm.get i j = hm.max_count ∧ hm.get_normalized i j = 1)
    ∧ (hm.max_count = 0 → ∀ i j, hm.get_normalized i j = 0) := by
  unfold SpatiotemporalIndex.heatmap? at h
  rcases hfold : (SpatiotemporalIndex.ofTriples l).locations.foldlM (heatmapStep g)
      (List.replicate (g.lat_cells * g.lon_cells) 0) with _ | counts
  · rw [hfold] at h
    cases h
  · rw [hfold] at h
    simp only [Option.map_some'] at h
    injection h with h
    subst h
    obtain ⟨hlen, hsum⟩ := heatmap_fold_spec g _ _ _ hfold
    have hlen' : counts.length = g.lat_cells * g.lon_cells := by simpa using hlen
    refine ⟨by simpa using hsum, rfl, rfl, ?_, ?_⟩
    · intro hne
      obtain ⟨kk, hk, hkv⟩ := foldr_max_attained counts hne
      have hlon0 : 0 < g.lon_cells := by
        rcases Nat.eq_zero_or_pos g.lon_cells with h0 | h0
        · rw [hlen', h0, Nat.mul_zero] at hk
          omega
        · exact h0
      have hklt : kk < g.lat_cells * g.lon_cells := hlen' ▸ hk
      have hi : kk / g.lon_cells < g.lat_cells :=
        Nat.div_lt_iff_lt_mul hlon0 |>.mpr hklt
      have hj : kk % g.lon_cells < g.lon_cells := Nat.mod_lt _ hlon0
      have hcell : (kk / g.lon_cells) * g.lon_cells + kk % g.lon_cells = kk := by
        rw [Nat.mul_comm]
        exact Nat.div_add_mod kk g.lon_cells
      have hget : (Heatmap.mk g counts (counts.foldr max 0)).get
          (kk / g.lon_cells) (kk % g.lon_cells) = counts.foldr max 0 := by
        unfold Heatmap.get
        rw [if_neg (by push_neg; exact ⟨by simpa using hi, by simpa using hj⟩)]
        simp only [hcell]
        rw [List.getD_eq_getElem?_getD,
          (List.getElem?_eq_some_getElem_iff _ _ hk).mpr trivial]
        simpa using hkv
      refine ⟨kk / g.lon_cells, kk % g.lon_cells, hget, ?_⟩
      unfold Heatmap.get_normalized
      rw [if_neg (by simpa using hne)]
      rw [hget]
      exact div_self (by exact_mod_cast hne)
    · intro h0 i j
      unfold Heatmap.get_normalized
      rw [if_pos (by simpa using h0)]

/-- Witness for C9: a one-item index at key 5 ms, via
`time_range_none_iff_empty`. -/
theorem time_range_none_iff_empty_witness :
    (∀ p ∈ [((0 : Nat), (5 : Int))], chronoMinMillis ≤ p.2 ∧ p.2 ≤ chronoMaxMillis)
    ∧ (((TemporalIndex.ofList [((0 : Nat), (5 : Int))]).time_range = none
          ↔ [((0 : Nat), (5 : Int))] = [])
        ∧ ∀ r, (TemporalIndex.ofList [((0 : Nat), (5 : Int))]).time_range = some r →
            r.start ∈ [((0 : Nat), (5 : Int))].map Prod.snd
            ∧ r.stop ∈ [((0 : Nat), (5 : Int))].map Prod.snd
            ∧ ∀ k ∈ [((0 : Nat), (5 : Int))].map Prod.snd,
                r.start ≤ k ∧ k ≤ r.stop) :=
  ⟨by decide, time_range_none_iff_empty [((0 : Nat), (5 : Int))] (by decide)⟩

theorem heatmap_eval_probe :
    (SpatiotemporalIndex.ofTriples [((0 : Nat), Location.mk 0 0, (0 : Int))]).heatmap?
        (GridSpec.mk 1 1 (GeoBounds.mk 0 0 1 1))
      = some (Heatmap.mk (GridSpec.mk 1 1 (GeoBounds.mk 0 0 1 1)) [1] 1) := by
  have hstep : heatmapStep (GridSpec.mk 1 1 (GeoBounds.mk 0 0 1 1)) [0]
      (Location.mk 0 0) = some [1] := by
    unfold heatmapStep GridSpec.cell_size
    norm_num [GeoBounds.contains]
  unfold SpatiotemporalIndex.heatmap?
  rw [show (SpatiotemporalIndex.ofTriples
      [((0 : Nat), Location.mk 0 0, (0 : Int))]).locations = [Location.mk 0 0] from rfl]
  rw [show List.replicate ((GridSpec.mk 1 1 (GeoBounds.mk 0 0 1 1)).lat_cells *
      (GridSpec.mk 1 1 (GeoBounds.mk 0 0 1 1)).lon_cells) (0 : Nat) = [0] from rfl]
  rw [List.foldlM_cons, hstep]
  rfl

/-- Witness for C6: a single stored location on a 1×1 grid produces the
heatmap with counts `[1]`, to which `heatmap_conservation` applies. -/
theorem heatmap_conservation_witness :
    (SpatiotemporalIndex.ofTriples [((0 : Nat), Location.mk 0 0, (0 : Int))]).heatmap?
        (GridSpec.mk 1 1 (GeoBounds.mk 0 0 1 1))
      = some (Heatmap.mk (GridSpec.mk 1 1 (GeoBounds.mk 0 0 1 1)) [1] 1)
    ∧ ((Heatmap.mk (GridSpec.mk 1 1 (GeoBounds.mk 0 0 1 1)) [1] 1).counts.sum
        = ((SpatiotemporalIndex.ofTriples
            [((0 : Nat), Location.mk 0 0, (0 : Int))]).locations.filter
              (fun loc => (GridSpec.mk 1 1 (GeoBounds.mk 0 0 1 1)).bounds.contains
                loc)).length
      ∧ (Heatmap.mk (GridSpec.mk 1 1 (GeoBounds.mk 0 0 1 1)) [1] 1).grid
          = GridSpec.mk 1 1 (GeoBounds.mk 0 0 1 1)
      ∧ (Heatmap.mk (GridSpec.mk 1 1 (GeoBounds.mk 0 0 1 1)) [1] 1).max_count
          = (Heatmap.mk (GridSpec.mk 1 1 (GeoBounds.mk 0 0 1 1)) [1] 1).counts.foldr
              max 0
      ∧ ((Heatmap.mk (GridSpec.mk 1 1 (GeoBounds.mk 0 0 1 1)) [1] 1).max_count ≠ 0 →
          ∃ i j, (Heatmap.mk (GridSpec.mk 1 1 (GeoBounds.mk 0 0 1 1)) [1] 1).get i j
              = (Heatmap.mk (GridSpec.mk 1 1 (GeoBounds.mk 0 0 1 1)) [1] 1).max_count
            ∧ (Heatmap.mk (GridSpec.mk 1 1 (GeoBounds.mk 0 0 1 1)) [1] 1).get_normalized
                i j = 1)
      ∧ ((Heatmap.mk (GridSpec.mk 1 1 (GeoBounds.mk 0 0 1 1)) [1] 1).max_count = 0 →
          ∀ i j, (Heatmap.mk (GridSpec.mk 1 1
            (GeoBounds.mk 0 0 1 1)) [1] 1).get_normalized i j = 0)) :=
  ⟨heatmap_eval_probe,
    heatmap_conservation [((0 : Nat), Location.mk 0 0, (0 : Int))]
      (GridSpec.mk 1 1 (GeoBounds.mk 0 0 1 1))
      (Heatmap.mk (GridSpec.mk 1 1 (GeoBounds.mk 0 0 1 1)) [1] 1) heatmap_eval_probe⟩

end SpatialNarrative
